import Mathlib

/-!
Verification of the asset-graph core of the dagster repository
(`python_modules/dagster/dagster/_core/definitions/asset_graph.py`).

The data model and the operations are shallowly embedded: Python classes
become Lean structures, Python dicts become functions into `Option` or
association lists, Python sets become `Bool`-valued membership functions or
`Finset`s, and fallible dict indexing becomes `Option`/`Except`.
Collaborator interfaces that live outside the embedded file
(`AssetsDefinition` accessors, `generate_asset_dep_graph`,
`resolve_output_to_origin`, `DependencyStructure`) are modelled from the
specification; each such definition is marked in its doc comment.
-/

/-- An asset identifier: an ordered sequence of path segments
(`AssetKey` in `events.py`; compares like a Python tuple of strings). -/
structure AssetKey where
  path : List String
deriving DecidableEq

/-- An asset-check identifier: target asset key plus check name
(`AssetCheckKey` in `asset_check_spec.py`). -/
structure AssetCheckKey where
  asset_key : AssetKey
  name : String
deriving DecidableEq

/-- Either an asset key or an asset-check key (`AssetKeyOrCheckKey`). -/
inductive AssetKeyOrCheckKey where
  | asset (key : AssetKey)
  | check (key : AssetCheckKey)
deriving DecidableEq

/-- Partitioning declaration of an asset.  Only the identity of the
partitioning matters to the embedded code (`partitions_def` is compared
for equality and for `None`-ness), so the model keeps an abstract set of
shapes: a daily time-window partitioning and a static key list. -/
inductive PartitionsDefinition where
  | daily
  | static (keys : List String)
deriving DecidableEq

/-- A partition mapping, classified the way
`materializable_in_same_run` classifies it with `isinstance`:
a `TimeWindowPartitionMapping`, an `IdentityPartitionMapping`, or any
other (custom) mapping class. -/
inductive PartitionMapping where
  | timeWindow
  | identity
  | custom (tag : String)
deriving DecidableEq

/-- The `isinstance(mapping, (TimeWindowPartitionMapping,
IdentityPartitionMapping))` test of `materializable_in_same_run`. -/
def PartitionMapping.is_simple : PartitionMapping → Bool
  | .timeWindow => true
  | .identity => true
  | .custom _ => false

/-- A declared check spec (`AssetCheckSpec`): a check name and the target
asset key. -/
structure AssetCheckSpec where
  name : String
  asset_key : AssetKey
deriving DecidableEq

/-- The key of a check spec (`AssetCheckSpec.key`). -/
def AssetCheckSpec.key (s : AssetCheckSpec) : AssetCheckKey :=
  ⟨s.asset_key, s.name⟩

/-! ## Ordering combinators

Python compares `AssetKey`s as tuples of strings and compares lists of
`AssetKey`s lexicographically; `sorted` is a stable sort with respect to
the induced `<`.  The combinators below build those orders. -/

/-- Strict lexicographic order on lists, from a strict order on elements. -/
def lexLt (lt : α → α → Bool) [DecidableEq α] : List α → List α → Bool
  | [], [] => false
  | [], _ :: _ => true
  | _ :: _, [] => false
  | a :: as, b :: bs => if a = b then lexLt lt as bs else lt a b

/-- Reflexive closure of a strict order, used as the comparator of a
stable sort. -/
def leOfLt (lt : α → α → Bool) [DecidableEq α] (a b : α) : Bool :=
  decide (a = b) || lt a b

/-- The facts about a strict order that the sorting arguments use. -/
structure IsStrictBoolOrder (lt : α → α → Bool) : Prop where
  irrefl : ∀ a, lt a a = false
  asymm : ∀ a b, lt a b = true → lt b a = false
  trans : ∀ a b c, lt a b = true → lt b c = true → lt a c = true
  connex : ∀ a b, a ≠ b → lt a b = true ∨ lt b a = true

theorem lexLt_nil_left [DecidableEq α] (lt : α → α → Bool) (l : List α) :
    lexLt lt [] l = true ↔ l ≠ [] := by
  cases l <;> simp [lexLt]

theorem lexLt_strict [DecidableEq α] {lt : α → α → Bool}
    (h : IsStrictBoolOrder lt) : IsStrictBoolOrder (lexLt lt) := by
  constructor
  · intro a
    induction a with
    | nil => rfl
    | cons x xs ih => simpa [lexLt] using ih
  · intro a b hab
    induction a generalizing b with
    | nil =>
      cases b with
      | nil => simp [lexLt] at hab
      | cons y ys => simp [lexLt]
    | cons x xs ih =>
      cases b with
      | nil => simp [lexLt] at hab
      | cons y ys =>
        by_cases hxy : x = y
        · subst hxy
          simp only [lexLt, if_pos rfl] at hab ⊢
          exact ih ys hab
        · simp only [lexLt, if_neg hxy] at hab
          have hyx : y ≠ x := fun hh => hxy hh.symm
          simp only [lexLt, if_neg hyx]
          exact h.asymm x y hab
  · intro a b c hab hbc
    induction a generalizing b c with
    | nil =>
      rw [lexLt_nil_left]
      intro hc
      subst hc
      cases b <;> simp [lexLt] at hab hbc
    | cons x xs ih =>
      cases b with
      | nil => simp [lexLt] at hab
      | cons y ys =>
        cases c with
        | nil => simp [lexLt] at hbc
        | cons z zs =>
          by_cases hxy : x = y
          · subst hxy
            simp only [lexLt, if_pos rfl] at hab
            by_cases hyz : x = z
            · subst hyz
              simp only [lexLt, if_pos rfl] at hbc ⊢
              exact ih ys zs hab hbc
            · simp only [lexLt, if_neg hyz] at hbc ⊢
              exact hbc
          · simp only [lexLt, if_neg hxy] at hab
            by_cases hyz : y = z
            · have hxz : x ≠ z := by
                rw [← hyz]
                exact hxy
              simp only [lexLt, if_neg hxz]
              rw [← hyz]
              exact hab
            · simp only [lexLt, if_neg hyz] at hbc
              have hxz : x ≠ z := by
                intro hh
                subst hh
                exact absurd (h.asymm x y hab) (by simp [hbc])
              simp only [lexLt, if_neg hxz]
              exact h.trans x y z hab hbc
  · intro a b hab
    induction a generalizing b with
    | nil =>
      cases b with
      | nil => exact absurd rfl hab
      | cons y ys => simp [lexLt]
    | cons x xs ih =>
      cases b with
      | nil => simp [lexLt]
      | cons y ys =>
        by_cases hxy : x = y
        · subst hxy
          have hxs : xs ≠ ys := by
            intro hh
            exact hab (by rw [hh])
          have := ih ys hxs
          simpa [lexLt] using this
        · have hyx : y ≠ x := fun hh => hxy hh.symm
          simp only [lexLt, if_neg hxy, if_neg hyx]
          exact h.connex x y hxy

theorem leOfLt_total [DecidableEq α] {lt : α → α → Bool}
    (h : IsStrictBoolOrder lt) (a b : α) :
    leOfLt lt a b = true ∨ leOfLt lt b a = true := by
  by_cases hab : a = b
  · subst hab
    left
    simp [leOfLt]
  · rcases h.connex a b hab with hc | hc
    · left
      simp [leOfLt, hc]
    · right
      simp [leOfLt, hc]

theorem leOfLt_trans [DecidableEq α] {lt : α → α → Bool}
    (h : IsStrictBoolOrder lt) (a b c : α)
    (hab : leOfLt lt a b = true) (hbc : leOfLt lt b c = true) :
    leOfLt lt a c = true := by
  simp only [leOfLt, Bool.or_eq_true, decide_eq_true_eq] at hab hbc ⊢
  rcases hab with hab | hab
  · subst hab
    exact hbc
  · rcases hbc with hbc | hbc
    · subst hbc
      right
      exact hab
    · right
      exact h.trans a b c hab hbc

theorem leOfLt_antisymm [DecidableEq α] {lt : α → α → Bool}
    (h : IsStrictBoolOrder lt) (a b : α)
    (hab : leOfLt lt a b = true) (hba : leOfLt lt b a = true) : a = b := by
  simp only [leOfLt, Bool.or_eq_true, decide_eq_true_eq] at hab hba
  rcases hab with hab | hab
  · exact hab
  · rcases hba with hba | hba
    · exact hba.symm
    · exact absurd (h.asymm a b hab) (by simp [hba])

/-- Strict comparison of characters by code point, as Python compares
the characters of a string. -/
def charLt (a b : Char) : Bool := Nat.blt a.toNat b.toNat

theorem charLt_eq_true (a b : Char) : charLt a b = true ↔ a.toNat < b.toNat := by
  unfold charLt
  rw [Nat.blt_eq]

theorem charLt_strict : IsStrictBoolOrder charLt := by
  constructor
  · intro a
    rw [Bool.eq_false_iff]
    intro hc
    rw [charLt_eq_true] at hc
    omega
  · intro a b hab
    rw [charLt_eq_true] at hab
    rw [Bool.eq_false_iff]
    intro hc
    rw [charLt_eq_true] at hc
    omega
  · intro a b c hab hbc
    rw [charLt_eq_true] at hab hbc ⊢
    omega
  · intro a b hab
    have hne : a.toNat ≠ b.toNat := by
      intro hh
      exact hab (Char.ext (UInt32.ext hh))
    rcases Nat.lt_or_ge a.toNat b.toNat with hc | hc
    · left
      rw [charLt_eq_true]
      exact hc
    · right
      rw [charLt_eq_true]
      omega

/-- Strict comparison of strings (lexicographic on code points, as Python
compares strings). -/
def strLt (a b : String) : Bool := lexLt charLt a.data b.data

theorem strLt_strict : IsStrictBoolOrder strLt := by
  have h := lexLt_strict charLt_strict
  constructor
  · intro a
    exact h.irrefl a.data
  · intro a b hab
    exact h.asymm a.data b.data hab
  · intro a b c hab hbc
    exact h.trans a.data b.data c.data hab hbc
  · intro a b hab
    exact h.connex a.data b.data (fun hh => hab (String.ext hh))

/-- Strict comparison of asset keys (Python tuple comparison on paths). -/
def AssetKey.lt (a b : AssetKey) : Bool := lexLt strLt a.path b.path

theorem assetKey_lt_strict : IsStrictBoolOrder AssetKey.lt := by
  have h := lexLt_strict strLt_strict
  constructor
  · intro a
    exact h.irrefl a.path
  · intro a b hab
    exact h.asymm a.path b.path hab
  · intro a b c hab hbc
    exact h.trans a.path b.path c.path hab hbc
  · intro a b hab
    refine h.connex a.path b.path ?_
    intro hh
    exact hab (by cases a; cases b; simpa using hh)

/-! ## A stable sort modelling Python `sorted`

`sorted` is a stable sort; insertion sort with a reflexive comparator is
stable, and under the hypotheses used by the theorems below the result is
independent of the algorithm. -/

/-- Insert an element into a sorted list, before the first element it
compares less-or-equal to (stable for ties). -/
def sortedInsert (le : α → α → Bool) (x : α) : List α → List α
  | [] => [x]
  | y :: ys => if le x y then x :: y :: ys else y :: sortedInsert le x ys

/-- Stable insertion sort with a boolean comparator. -/
def sortBy (le : α → α → Bool) : List α → List α
  | [] => []
  | x :: xs => sortedInsert le x (sortBy le xs)

theorem sortedInsert_perm (le : α → α → Bool) (x : α) (l : List α) :
    (sortedInsert le x l).Perm (x :: l) := by
  induction l with
  | nil => simp [sortedInsert]
  | cons y ys ih =>
    by_cases h : le x y = true
    · simp [sortedInsert, h]
    · simp only [sortedInsert, if_neg h]
      exact (ih.cons y).trans (List.Perm.swap x y ys)

theorem sortBy_perm (le : α → α → Bool) (l : List α) :
    (sortBy le l).Perm l := by
  induction l with
  | nil => simp [sortBy]
  | cons x xs ih =>
    exact (sortedInsert_perm le x (sortBy le xs)).trans (ih.cons x)

theorem sortedInsert_pairwise (le : α → α → Bool)
    (htotal : ∀ a b, le a b = true ∨ le b a = true)
    (htrans : ∀ a b c, le a b = true → le b c = true → le a c = true)
    (x : α) (l : List α) (hl : l.Pairwise (fun a b => le a b = true)) :
    (sortedInsert le x l).Pairwise (fun a b => le a b = true) := by
  induction l with
  | nil => simp [sortedInsert]
  | cons y ys ih =>
    rcases List.pairwise_cons.mp hl with ⟨hy, hys⟩
    by_cases h : le x y = true
    · simp only [sortedInsert, if_pos h]
      refine List.pairwise_cons.mpr ⟨?_, hl⟩
      intro b hb
      rcases hb with _ | hb
      · exact h
      · exact htrans x y b h (hy b (by assumption))
    · simp only [sortedInsert, if_neg h]
      refine List.pairwise_cons.mpr ⟨?_, ih hys⟩
      intro b hb
      have hb' := (sortedInsert_perm le x ys).mem_iff.mp hb
      rcases List.mem_cons.mp hb' with hb' | hb'
      · rw [hb']
        rcases htotal x y with hc | hc
        · exact absurd hc h
        · exact hc
      · exact hy b hb'

theorem sortBy_pairwise (le : α → α → Bool)
    (htotal : ∀ a b, le a b = true ∨ le b a = true)
    (htrans : ∀ a b c, le a b = true → le b c = true → le a c = true)
    (l : List α) : (sortBy le l).Pairwise (fun a b => le a b = true) := by
  induction l with
  | nil => simp [sortBy]
  | cons x xs ih => exact sortedInsert_pairwise le htotal htrans x _ ih

/-- Two sorted lists that are permutations of one another are equal,
provided the comparator is antisymmetric on the elements involved. -/
theorem eq_of_perm_of_pairwise_le {le : α → α → Bool} :
    ∀ (l₁ l₂ : List α), l₁.Perm l₂ →
    l₁.Pairwise (fun a b => le a b = true) →
    l₂.Pairwise (fun a b => le a b = true) →
    (∀ a ∈ l₁, ∀ b ∈ l₁, le a b = true → le b a = true → a = b) →
    l₁ = l₂
  | [], [], _, _, _, _ => rfl
  | [], b :: l₂, hp, _, _, _ => absurd hp (by simp)
  | a :: l₁, [], hp, _, _, _ => absurd hp (by simp)
  | a :: l₁, b :: l₂, hp, hs₁, hs₂, hanti => by
    rcases List.pairwise_cons.mp hs₁ with ⟨ha, hl₁⟩
    rcases List.pairwise_cons.mp hs₂ with ⟨hb, hl₂⟩
    have hab : a = b := by
      have hmem_a : a ∈ b :: l₂ := hp.subset (by simp)
      have hmem_b : b ∈ a :: l₁ := hp.symm.subset (by simp)
      rcases List.mem_cons.mp hmem_a with h1 | h1
      · exact h1
      · rcases List.mem_cons.mp hmem_b with h2 | h2
        · exact h2.symm
        · exact hanti a (by simp) b (by simp [h2]) (ha b h2) (hb a h1)
    subst hab
    have hp' : l₁.Perm l₂ := hp.cons_inv
    have : l₁ = l₂ :=
      eq_of_perm_of_pairwise_le l₁ l₂ hp' hl₁ hl₂
        (fun x hx y hy => hanti x (by simp [hx]) y (by simp [hy]))
    rw [this]

/-- Sorting two permutations of each other yields the same list when the
comparator is antisymmetric on the elements. -/
theorem sortBy_eq_of_perm {le : α → α → Bool}
    (htotal : ∀ a b, le a b = true ∨ le b a = true)
    (htrans : ∀ a b c, le a b = true → le b c = true → le a c = true)
    (l₁ l₂ : List α) (hp : l₁.Perm l₂)
    (hanti : ∀ a ∈ l₁, ∀ b ∈ l₁, le a b = true → le b a = true → a = b) :
    sortBy le l₁ = sortBy le l₂ := by
  refine eq_of_perm_of_pairwise_le _ _
    (((sortBy_perm le l₁).trans hp).trans (sortBy_perm le l₂).symm)
    (sortBy_pairwise le htotal htrans l₁)
    (sortBy_pairwise le htotal htrans l₂) ?_
  intro a hA b hB
  exact hanti a ((sortBy_perm le l₁).subset hA) b ((sortBy_perm le l₁).subset hB)

/-! ## Execution nodes and nested subgraphs

`NodeHandle`, `NodeInputHandle`, `NodeOutputHandle` mirror the classes of
`dependency.py`; a handle is the path of node names from the outermost
invocation.  `NodeDefinition` is either a leaf op or a graph of named
sub-nodes with output mappings and internal dependency edges (the
`DependencyStructure` of a `GraphDefinition`, modelled from the spec as an
explicit list of `(source output pointer, downstream input)` edges). -/

structure NodeHandle where
  path : List String
deriving DecidableEq

/-- Python `NodeHandle(name, parent=handle)`. -/
def NodeHandle.child (h : NodeHandle) (name : String) : NodeHandle :=
  ⟨h.path ++ [name]⟩

structure NodeInputHandle where
  node_handle : NodeHandle
  input_name : String
deriving DecidableEq

structure NodeOutputHandle where
  node_handle : NodeHandle
  output_name : String
deriving DecidableEq

/-- The `maps_from` pointer of an output mapping: the inner node and the
inner output the graph-level output comes from. -/
structure OutputPointer where
  node_name : String
  output_name : String
deriving DecidableEq

/-- An output mapping of a graph definition. -/
structure OutputMapping where
  graph_output_name : String
  maps_from : OutputPointer
deriving DecidableEq

/-- A downstream destination of an internal edge: consuming node name and
input name, both at the level of the enclosing graph. -/
structure EdgeInput where
  node_name : String
  input_name : String
deriving DecidableEq

/-- A node definition: a leaf op with named outputs, or a graph with named
sub-nodes, output mappings, and internal edges. -/
inductive NodeDefinition where
  | op (name : String) (output_names : List String)
  | graph (name : String) (nodes : List (String × NodeDefinition))
      (output_mappings : List OutputMapping)
      (edges : List (OutputPointer × EdgeInput))

/-- The invocation name of a node definition (`NodeDefinition.name`). -/
def NodeDefinition.name : NodeDefinition → String
  | .op n _ => n
  | .graph n _ _ _ => n

/-- Python `GraphDefinition.node_named`, as an association-list lookup. -/
def lookupNode : List (String × NodeDefinition) → String → Option NodeDefinition
  | [], _ => none
  | (n, d) :: rest, m => if n == m then some d else lookupNode rest m

theorem sizeOf_lookupNode :
    ∀ (ns : List (String × NodeDefinition)) (m : String) (nd : NodeDefinition),
    lookupNode ns m = some nd → sizeOf nd < sizeOf ns := by
  intro ns
  induction ns with
  | nil =>
    intro m nd h
    simp [lookupNode] at h
  | cons p rest ih =>
    intro m nd h
    obtain ⟨n, d⟩ := p
    simp only [lookupNode] at h
    by_cases hc : (n == m) = true
    · rw [if_pos hc] at h
      obtain rfl : d = nd := by simpa using h
      simp only [List.cons.sizeOf_spec, Prod.mk.sizeOf_spec]
      omega
    · rw [if_neg hc] at h
      have := ih m nd h
      simp only [List.cons.sizeOf_spec]
      omega

theorem one_le_sizeOf_list [SizeOf α] : ∀ (l : List α), 1 ≤ sizeOf l
  | [] => by simp
  | x :: xs => by
    simp only [List.cons.sizeOf_spec]
    omega

/-- Whether a node definition exposes an output of the given name
(`output_def_named` succeeding). -/
def NodeDefinition.has_output : NodeDefinition → String → Bool
  | .op _ outs, o => outs.contains o
  | .graph _ _ maps _, o => maps.any (fun m => m.graph_output_name == o)

mutual

/-- The nesting depth of a node definition: 0 for a leaf op, one more than
the deepest sub-node for a graph. -/
def NodeDefinition.depth : NodeDefinition → Nat
  | .op _ _ => 0
  | .graph _ nodes _ _ => 1 + depthOfNodes nodes

/-- The deepest nesting depth among a list of named sub-nodes. -/
def depthOfNodes : List (String × NodeDefinition) → Nat
  | [] => 0
  | (_, nd) :: rest => max (NodeDefinition.depth nd) (depthOfNodes rest)

end

theorem depth_lookupNode :
    ∀ (ns : List (String × NodeDefinition)) (m : String) (nd : NodeDefinition),
    lookupNode ns m = some nd → nd.depth ≤ depthOfNodes ns := by
  intro ns
  induction ns with
  | nil =>
    intro m nd h
    simp [lookupNode] at h
  | cons p rest ih =>
    intro m nd h
    obtain ⟨n, d⟩ := p
    simp only [lookupNode] at h
    by_cases hc : (n == m) = true
    · rw [if_pos hc] at h
      obtain rfl : d = nd := by simpa using h
      simp only [depthOfNodes]
      exact le_max_left _ _
    · rw [if_neg hc] at h
      have := ih m nd h
      simp only [depthOfNodes]
      exact this.trans (le_max_right _ _)

/-- Modelled from the spec: `NodeDefinition.resolve_output_to_origin`
(`graph_definition.py`, not under `src/`), per §4.1 step 4: "An outer
output is traced to the single leaf step/output that actually produces
it."  Returns the leaf output name and the handle of the leaf node, or
`none` where the Python raises (missing mapping or missing node). -/
def resolve_output_to_origin :
    NodeDefinition → String → NodeHandle → Option (String × NodeHandle)
  | .op _ outs, output_name, handle =>
    if outs.contains output_name then some (output_name, handle) else none
  | .graph _ nodes maps _, output_name, handle =>
    match maps.find? (fun m => m.graph_output_name == output_name) with
    | none => none
    | some m =>
      match hn : lookupNode nodes m.maps_from.node_name with
      | none => none
      | some nd =>
        resolve_output_to_origin nd m.maps_from.output_name
          (handle.child m.maps_from.node_name)
termination_by nd _ _ => sizeOf nd
decreasing_by
  have hlt := sizeOf_lookupNode _ _ _ hn
  simp only [NodeDefinition.graph.sizeOf_spec]
  omega

mutual

/-- Embedding of `_resolve_output_to_destinations` from `asset_graph.py`:
collects, for one output of a node, every downstream input handle
reachable through the node's internal output mappings, recursing into the
producing sub-node.  Returns `none` where the Python raises (a mapping
pointing at a missing node, or `output_def_named` failing). -/
def resolve_output_to_destinations :
    String → NodeDefinition → NodeHandle → Option (List NodeInputHandle)
  | _, .op _ _, _ => some []
  | output_name, .graph _ nodes maps es, handle =>
    destinationsForMappings output_name nodes es handle maps
termination_by _ nd _ => sizeOf nd
decreasing_by
  simp only [NodeDefinition.graph.sizeOf_spec]
  omega

/-- The loop body of `_resolve_output_to_destinations`: walk the output
mappings of a graph, and for each mapping whose graph output matches,
append the destinations found inside the producing sub-node and the
downstream inputs of that sub-node's output at this level. -/
def destinationsForMappings :
    String → List (String × NodeDefinition) → List (OutputPointer × EdgeInput) →
    NodeHandle → List OutputMapping → Option (List NodeInputHandle)
  | _, _, _, _, [] => some []
  | output_name, nodes, es, handle, m :: rest =>
    if m.graph_output_name == output_name then
      match hn : lookupNode nodes m.maps_from.node_name with
      | none => none
      | some output_node =>
        match resolve_output_to_destinations m.maps_from.output_name output_node
            (handle.child m.maps_from.node_name) with
        | none => none
        | some inner =>
          if output_node.has_output m.maps_from.output_name then
            match destinationsForMappings output_name nodes es handle rest with
            | none => none
            | some tail =>
              some (inner ++
                (es.filter (fun e => e.1 == m.maps_from)).map
                  (fun e => NodeInputHandle.mk (handle.child e.2.node_name)
                    e.2.input_name) ++ tail)
          else none
    else destinationsForMappings output_name nodes es handle rest
termination_by _ nodes _ _ ml => sizeOf nodes + sizeOf ml
decreasing_by
  · have hlt := sizeOf_lookupNode _ _ _ hn
    simp only [List.cons.sizeOf_spec]
    omega
  · simp only [List.cons.sizeOf_spec]
    omega
  · simp only [List.cons.sizeOf_spec]
    omega

end

/-! ## Asset definitions

`AssetsDefinition` (defined in `assets.py`, outside `src/`) is modelled
from the capability set the spec gives it in §6: identifier set,
per-identifier dependency references, per-identifier check specs,
partitioning declaration, subsettability flag, and the executable body
(node definition).  Dependency references are taken as already absolute:
the relative-resolution pass (`ResolvedAssetDependencies`, not under
`src/`) is the identity on absolute references per §4.1 step 1, and no
claim concerns relative references. -/

structure AssetsDefinition where
  keys : List AssetKey
  asset_deps : List (AssetKey × List AssetKey)
  check_specs_by_output_name : List (String × AssetCheckSpec)
  can_subset : Bool
  is_executable : Bool
  is_materializable : Bool
  is_external : Bool
  partitions_def : Option PartitionsDefinition
  partition_mappings : List (AssetKey × PartitionMapping)
  node_def : NodeDefinition
  node_keys_by_output_name : List (String × AssetKey)
  auto_created_stub : Bool

/-- Modelled from the spec: `AssetsDefinition.check_keys` (`assets.py`,
not under `src/`): the keys of all declared check specs. -/
def AssetsDefinition.check_keys (d : AssetsDefinition) : List AssetCheckKey :=
  d.check_specs_by_output_name.map (fun p => p.2.key)

/-- Modelled from the spec: `AssetsDefinition.asset_and_check_keys`
(`assets.py`, not under `src/`): the set of every asset and check
identifier the definition produces. -/
def AssetsDefinition.asset_and_check_keys (d : AssetsDefinition) :
    Finset AssetKeyOrCheckKey :=
  (d.keys.map AssetKeyOrCheckKey.asset
    ++ d.check_keys.map AssetKeyOrCheckKey.check).toFinset

/-- The dependency references declared for one produced key
(`asset_deps` of the real class, a mapping key → upstream keys). -/
def AssetsDefinition.deps_of (d : AssetsDefinition) (k : AssetKey) :
    List AssetKey :=
  ((d.asset_deps.find? (fun p => p.1 == k)).map (fun p => p.2)).getD []

/-- Modelled from the spec: `AssetsDefinition.dependency_keys`
(`assets.py`, not under `src/`); per §4.1 step 2 the referenced set used
for stub synthesis covers both dependency references and check targets. -/
def AssetsDefinition.dependency_keys (d : AssetsDefinition) : List AssetKey :=
  d.asset_deps.flatMap (fun p => p.2)
    ++ d.check_keys.map (fun ck => ck.asset_key)

/-- Modelled from the spec: `AssetsDefinition.get_spec_for_check_key`
(`assets.py`, not under `src/`): the declared spec with the given key. -/
def AssetsDefinition.get_spec_for_check_key (d : AssetsDefinition)
    (ck : AssetCheckKey) : Option AssetCheckSpec :=
  (d.check_specs_by_output_name.find? (fun p => p.2.key == ck)).map
    (fun p => p.2)

/-- Modelled from the spec: `external_asset_from_spec(AssetSpec(key=key,
metadata={SYSTEM_METADATA_KEY_AUTO_CREATED_STUB_ASSET: True}))`
(`external_asset.py`, not under `src/`), per §4.1 step 2: an unexecutable
external stub definition tagged as system-generated. -/
def stub_asset (k : AssetKey) : AssetsDefinition where
  keys := [k]
  asset_deps := []
  check_specs_by_output_name := []
  can_subset := false
  is_executable := false
  is_materializable := false
  is_external := true
  partitions_def := none
  partition_mappings := []
  node_def := .op "stub" []
  node_keys_by_output_name := []
  auto_created_stub := true

/-- The comparator used on asset keys (Python `<` on `AssetKey`). -/
def assetKeyLe : AssetKey → AssetKey → Bool := leOfLt AssetKey.lt

/-- Strict lexicographic comparison of asset-key lists. -/
def assetKeyListLt : List AssetKey → List AssetKey → Bool := lexLt AssetKey.lt

/-- The keys needing stub synthesis: every key referenced as a dependency
or check target by some definition but produced by none.  Python computes
this as a set difference and iterates the set; the model iterates it in
sorted order, which the spec's determinism requirement (§4.1) licenses. -/
def stub_keys (defs : List AssetsDefinition) : List AssetKey :=
  let all_keys := defs.flatMap (fun d => d.keys)
  let referenced := defs.flatMap (fun d => d.dependency_keys)
  ((sortBy assetKeyLe referenced).dedup).filter
    (fun k => !(all_keys.contains k))

/-- Embedding of `AssetGraph.normalize_assets`: keep the provided
definitions and append an unexecutable external stub for every referenced
but unprovided key. -/
def normalize_assets (assets : List AssetsDefinition) :
    List AssetsDefinition :=
  assets ++ (stub_keys assets).map stub_asset

/-- Modelled from the spec: `generate_asset_dep_graph`
(`subset_selector.py`, not under `src/`), per §4.1 step 3: `p` is a
parent of `k` iff some definition produces `k` and declares `p` among the
dependency references of `k`. -/
def upstream_of (defs : List AssetsDefinition) (k : AssetKey) :
    AssetKey → Bool :=
  fun p => defs.any (fun d => d.keys.contains k && (d.deps_of k).contains p)

/-- The downstream direction of the dependency graph: `c` is a child of
`k` iff some definition produces `c` and declares `k` among the
dependency references of `c`. -/
def downstream_of (defs : List AssetsDefinition) (k : AssetKey) :
    AssetKey → Bool :=
  fun c => defs.any (fun d => d.keys.contains c && (d.deps_of c).contains k)

/-- Embedding of the `AssetNode` class: identity, adjacency as key sets,
the owning definition, and the keys of the checks targeting the asset. -/
structure AssetNode where
  key : AssetKey
  parent_keys : AssetKey → Bool
  child_keys : AssetKey → Bool
  assets_def : AssetsDefinition
  check_keys : AssetCheckKey → Bool

def AssetNode.is_materializable (n : AssetNode) : Bool :=
  n.assets_def.is_materializable

def AssetNode.is_executable (n : AssetNode) : Bool :=
  n.assets_def.is_executable

def AssetNode.partitions_def (n : AssetNode) : Option PartitionsDefinition :=
  n.assets_def.partitions_def

def AssetNode.is_partitioned (n : AssetNode) : Bool :=
  n.partitions_def.isSome

/-- Embedding of `AssetNode.execution_set_asset_and_check_keys`
(`asset_graph.py` lines 147-152). -/
def AssetNode.execution_set_asset_and_check_keys (n : AssetNode) :
    Finset AssetKeyOrCheckKey :=
  if n.assets_def.can_subset then {AssetKeyOrCheckKey.asset n.key}
  else n.assets_def.asset_and_check_keys

/-- The checks targeting one asset key, collected over all definitions
(the `check_keys_by_asset_key` dict of `from_assets`). -/
def check_keys_for (defs : List AssetsDefinition) (k : AssetKey) :
    AssetCheckKey → Bool :=
  fun ck => ck.asset_key == k && defs.any (fun d => d.check_keys.contains ck)

/-- The `asset_nodes_by_key` dict comprehension of `from_assets`: the node
for a key, owned by the last definition producing the key (dict overwrite
semantics), with adjacency from the dependency graph. -/
def asset_nodes_of (defs : List AssetsDefinition) (k : AssetKey) :
    Option AssetNode :=
  (defs.reverse.find? (fun d => d.keys.contains k)).map (fun d =>
    { key := k
      parent_keys := upstream_of defs k
      child_keys := downstream_of defs k
      assets_def := d
      check_keys := check_keys_for defs k })

/-- Pointwise update of the `collisions` counter dict (absent = 0, which
is also how Python's truthiness of `collisions.get(name)` reads). -/
def update_count (c : String → Nat) (n : String) (v : Nat) :
    String → Nat :=
  fun m => if m = n then v else c m

/-- The alias-assignment loop of `_build_assets_defs_by_op_node_names`,
threading the collision counters: a first occurrence of a node name keeps
the bare name, the i-th occurrence gets the suffix `_i`. -/
def alias_sequence_from (c : String → Nat) :
    List AssetsDefinition → List (String × AssetsDefinition)
  | [] => []
  | d :: rest =>
    let n := d.node_def.name
    if c n ≠ 0 then
      (n ++ "_" ++ toString (c n + 1), d)
        :: alias_sequence_from (update_count c n (c n + 1)) rest
    else
      (n, d) :: alias_sequence_from (update_count c n 1) rest

/-- Alias assignment starting from empty collision counters. -/
def alias_sequence (l : List AssetsDefinition) :
    List (String × AssetsDefinition) :=
  alias_sequence_from (fun _ => 0) l

/-- The sort key of `sorted(assets_defs, key=lambda ad: sorted(ad.keys))`. -/
def sort_key (d : AssetsDefinition) : List AssetKey :=
  sortBy assetKeyLe d.keys

/-- The comparator induced by the sort key. -/
def assets_def_le (d1 d2 : AssetsDefinition) : Bool :=
  leOfLt assetKeyListLt (sort_key d1) (sort_key d2)

/-- Python dict insertion on an association list: replace in place when
the key is present, append otherwise. -/
def dictInsert (l : List (String × AssetsDefinition))
    (kv : String × AssetsDefinition) : List (String × AssetsDefinition) :=
  if l.any (fun p => p.1 == kv.1) then
    l.map (fun p => if p.1 == kv.1 then (p.1, kv.2) else p)
  else l ++ [kv]

/-- Embedding of `AssetGraph._build_assets_defs_by_op_node_names`: sort
the definitions by sorted key list, keep the executable ones, assign
collision-disambiguated aliases, and build the result dict (as an
association list in insertion order). -/
def build_assets_defs_by_op_node_names (assets_defs : List AssetsDefinition) :
    List (String × AssetsDefinition) :=
  (alias_sequence
    ((sortBy assets_def_le assets_defs).filter
      (fun d => d.is_executable))).foldl dictInsert []

/-- The `asset_key_by_output` entries built by the output loop of
`from_assets`: for each op node and each declared output key, resolve the
output to its leaf origin and record (inner output handle ↦ asset key).
Entries whose resolution fails are skipped where the Python raises. -/
def output_key_entries (opList : List (String × AssetsDefinition)) :
    List (NodeOutputHandle × AssetKey) :=
  opList.flatMap (fun p =>
    p.2.node_keys_by_output_name.filterMap (fun q =>
      (resolve_output_to_origin p.2.node_def q.1 ⟨[p.1]⟩).map
        (fun r => (⟨r.2, r.1⟩, q.2))))

/-- Read an association list with dict-update semantics: the last entry
for a key wins. -/
def lookup_last (l : List (NodeOutputHandle × AssetKey))
    (oh : NodeOutputHandle) : Option AssetKey :=
  (l.reverse.find? (fun p => p.1 == oh)).map (fun p => p.2)

/-- The final `assets_defs_by_check_key` dict of `from_assets` (the one
assigned at line 285 and populated per executable op node): the last
executable definition in iteration order declaring the check key. -/
def check_defs_of (opList : List (String × AssetsDefinition))
    (ck : AssetCheckKey) : Option AssetsDefinition :=
  (opList.reverse.find? (fun p => p.2.check_keys.contains ck)).map
    (fun p => p.2)

/-- Embedding of the `AssetGraph` class (also standing in for
`BaseAssetGraph`): node lookup, check-key binding, output-handle lookup,
plus the locality interface of a remote graph (`is_remote` models
`isinstance(asset_graph, RemoteAssetGraph)` and `repository_handle`
models `get_repository_handle`, both modelled from the spec's locality
groups; a locally built graph is never remote). -/
structure AssetGraph where
  asset_nodes_by_key : AssetKey → Option AssetNode
  assets_defs_by_check_key : AssetCheckKey → Option AssetsDefinition
  asset_keys_by_node_output_handle : NodeOutputHandle → Option AssetKey
  is_remote : Bool
  repository_handle : AssetKey → String

/-- Embedding of `AssetGraph.from_assets`. -/
def from_assets (assets : List AssetsDefinition) : AssetGraph :=
  let assets_defs := normalize_assets assets
  let opList := build_assets_defs_by_op_node_names assets_defs
  { asset_nodes_by_key := asset_nodes_of assets_defs
    assets_defs_by_check_key := check_defs_of opList
    asset_keys_by_node_output_handle := lookup_last (output_key_entries opList)
    is_remote := false
    repository_handle := fun _ => "" }

/-- `BaseAssetGraph.get`: node lookup (raises in Python on a missing
key, hence `Option`). -/
def AssetGraph.get (g : AssetGraph) (k : AssetKey) : Option AssetNode :=
  g.asset_nodes_by_key k

/-- Modelled from the spec: `BaseAssetGraph.get_partition_mapping`
(`base_asset_graph.py`, not under `src/`): the mapping the child declares
for the parent, or an inferred default (a time-window mapping for
time-window partitioned children, identity otherwise) when none is
declared. -/
def AssetGraph.get_partition_mapping (g : AssetGraph)
    (child parent : AssetKey) : PartitionMapping :=
  match g.get child with
  | some n =>
    match (n.assets_def.partition_mappings.find?
        (fun p => p.1 == parent)).map (fun p => p.2) with
    | some m => m
    | none =>
      match n.partitions_def with
      | some .daily => .timeWindow
      | _ => .identity
  | none => .identity

/-- A failed dict lookup (Python `KeyError`). -/
inductive LookupFailure where
  | keyError (key : AssetKeyOrCheckKey)
deriving DecidableEq

/-- Embedding of `AssetGraph.get_execution_set_asset_and_check_keys`
(`asset_graph.py` lines 406-415); the `Except` failure models the
`KeyError`/check failure raised for an unknown key. -/
def AssetGraph.get_execution_set_asset_and_check_keys (g : AssetGraph) :
    AssetKeyOrCheckKey → Except LookupFailure (Finset AssetKeyOrCheckKey)
  | .asset k =>
    match g.get k with
    | some n => .ok n.execution_set_asset_and_check_keys
    | none => .error (.keyError (.asset k))
  | .check ck =>
    match g.assets_defs_by_check_key ck with
    | some d =>
      .ok (if d.can_subset then {AssetKeyOrCheckKey.check ck}
        else d.asset_and_check_keys)
    | none => .error (.keyError (.check ck))

/-- Embedding of `AssetGraph.get_spec_for_asset_check` (`asset_graph.py`
lines 444-446): a `dict.get` that returns `None` for an unbound key. -/
def AssetGraph.get_spec_for_asset_check (g : AssetGraph)
    (ck : AssetCheckKey) : Option AssetCheckSpec :=
  match g.assets_defs_by_check_key ck with
  | some d => d.get_spec_for_check_key ck
  | none => none

/-- Embedding of `materializable_in_same_run` (`asset_graph.py` lines
449-479); `none` models the exception raised when either key has no
node. -/
def materializable_in_same_run (asset_graph : AssetGraph)
    (child_key parent_key : AssetKey) : Option Bool :=
  match asset_graph.get child_key, asset_graph.get parent_key with
  | some child_node, some parent_node =>
    some (child_node.is_materializable && parent_node.is_materializable
      && decide (child_node.partitions_def = parent_node.partitions_def)
      && (!parent_node.is_partitioned
        || (asset_graph.get_partition_mapping child_node.key
            parent_node.key).is_simple)
      && (!asset_graph.is_remote
        || asset_graph.repository_handle child_key
          == asset_graph.repository_handle parent_key))
  | _, _ => none

theorem option_isSome_false_iff (o : Option α) : o.isSome = false ↔ o = none := by
  cases o <;> simp

/-- C1 -/
theorem materializable_in_same_run_iff (g : AssetGraph)
    (child_key parent_key : AssetKey) (child_node parent_node : AssetNode)
    (hc : g.get child_key = some child_node)
    (hp : g.get parent_key = some parent_node) :
    materializable_in_same_run g child_key parent_key = some true ↔
      (child_node.is_materializable = true
        ∧ parent_node.is_materializable = true
        ∧ child_node.partitions_def = parent_node.partitions_def
        ∧ (parent_node.partitions_def = none
            ∨ (g.get_partition_mapping child_node.key
                parent_node.key).is_simple = true)
        ∧ (g.is_remote = true →
            g.repository_handle child_key = g.repository_handle parent_key)) := by
  simp only [materializable_in_same_run, hc, hp, Option.some.injEq,
    Bool.and_eq_true, Bool.or_eq_true, Bool.not_eq_true', decide_eq_true_eq,
    beq_iff_eq, AssetNode.is_partitioned, option_isSome_false_iff]
  constructor
  · rintro ⟨⟨⟨⟨h1, h2⟩, h3⟩, h4⟩, h5⟩
    refine ⟨h1, h2, h3, h4, ?_⟩
    intro hr
    rcases h5 with h5 | h5
    · rw [hr] at h5
      cases h5
    · exact h5
  · rintro ⟨h1, h2, h3, h4, h5⟩
    refine ⟨⟨⟨⟨h1, h2⟩, h3⟩, h4⟩, ?_⟩
    by_cases hr : g.is_remote = true
    · exact Or.inr (h5 hr)
    · exact Or.inl (by simpa using hr)

def mkDef (ks : List AssetKey) (deps : List (AssetKey × List AssetKey))
    (checks : List (String × AssetCheckSpec)) (sub ex mat : Bool)
    (pd : Option PartitionsDefinition)
    (pm : List (AssetKey × PartitionMapping)) (nd : NodeDefinition) :
    AssetsDefinition :=
  { keys := ks, asset_deps := deps, check_specs_by_output_name := checks,
    can_subset := sub, is_executable := ex, is_materializable := mat,
    is_external := false, partitions_def := pd, partition_mappings := pm,
    node_def := nd, node_keys_by_output_name := [],
    auto_created_stub := false }

def mkNode (k : AssetKey) (d : AssetsDefinition) : AssetNode :=
  { key := k, parent_keys := fun _ => false, child_keys := fun _ => false,
    assets_def := d, check_keys := fun _ => false }

def wChild : AssetKey := ⟨["wc"]⟩
def wParent : AssetKey := ⟨["wp"]⟩

def c1Graph : AssetGraph :=
  { asset_nodes_by_key := fun k =>
      if k = wChild then
        some (mkNode wChild (mkDef [wChild] [] [] false true true none [] (.op "c" [])))
      else if k = wParent then
        some (mkNode wParent (mkDef [wParent] [] [] false true true none [] (.op "p" [])))
      else none
    assets_defs_by_check_key := fun _ => none
    asset_keys_by_node_output_handle := fun _ => none
    is_remote := true
    repository_handle := fun _ => "repo" }

/-- C1 witness -/
theorem materializable_in_same_run_iff_witness :
    materializable_in_same_run c1Graph wChild wParent = some true :=
  (materializable_in_same_run_iff c1Graph wChild wParent
    (mkNode wChild (mkDef [wChild] [] [] false true true none [] (.op "c" [])))
    (mkNode wParent (mkDef [wParent] [] [] false true true none [] (.op "p" [])))
    (by rfl) (by rfl)).mpr ⟨rfl, rfl, rfl, Or.inl rfl, fun _ => rfl⟩

def c4Graph : AssetGraph :=
  { asset_nodes_by_key := fun k =>
      if k = wChild then
        some (mkNode wChild (mkDef [wChild] [] [] false true true none
          [(wParent, .timeWindow)] (.op "c" [])))
      else if k = wParent then
        some (mkNode wParent (mkDef [wParent] [] [] false true true
          (some .daily) [] (.op "p" [])))
      else none
    assets_defs_by_check_key := fun _ => none
    asset_keys_by_node_output_handle := fun _ => none
    is_remote := false
    repository_handle := fun _ => "" }

/-- C4 counterexample -/
theorem c4_scenario_counterexample :
    materializable_in_same_run c4Graph wChild wParent = some false := by rfl

/-- C4 amended -/
theorem same_run_daily_parent_unpartitioned_child (g : AssetGraph)
    (child_key parent_key : AssetKey) (child_node parent_node : AssetNode)
    (hc : g.get child_key = some child_node)
    (hp : g.get parent_key = some parent_node)
    (hcu : child_node.partitions_def = none)
    (hpd : parent_node.partitions_def = some .daily) :
    materializable_in_same_run g child_key parent_key = some false := by
  simp [materializable_in_same_run, hc, hp, hcu, hpd]

/-- C4 amended witness -/
theorem same_run_daily_parent_unpartitioned_child_witness :
    materializable_in_same_run c4Graph wChild wParent = some false :=
  same_run_daily_parent_unpartitioned_child c4Graph wChild wParent
    (mkNode wChild (mkDef [wChild] [] [] false true true none
      [(wParent, .timeWindow)] (.op "c" [])))
    (mkNode wParent (mkDef [wParent] [] [] false true true
      (some .daily) [] (.op "p" [])))
    (by rfl) (by rfl) rfl rfl

/-- C8 -/
theorem adjacency_symmetric (assets : List AssetsDefinition) (a b : AssetKey)
    (na nb : AssetNode)
    (ha : (from_assets assets).asset_nodes_by_key a = some na)
    (hb : (from_assets assets).asset_nodes_by_key b = some nb) :
    (na.parent_keys b = true ↔ nb.child_keys a = true) := by
  have ha' : asset_nodes_of (normalize_assets assets) a = some na := ha
  have hb' : asset_nodes_of (normalize_assets assets) b = some nb := hb
  unfold asset_nodes_of at ha' hb'
  rcases Option.map_eq_some'.mp ha' with ⟨d1, _, hna⟩
  rcases Option.map_eq_some'.mp hb' with ⟨d2, _, hnb⟩
  rw [← hna, ← hnb]
  exact Iff.rfl

def c8DefB : AssetsDefinition :=
  mkDef [⟨["b"]⟩] [(⟨["b"]⟩, [⟨["a"]⟩])] [] false true true none []
    (.op "b_op" [])

def c8NodeA : AssetNode :=
  ((from_assets [c8DefB]).asset_nodes_by_key ⟨["a"]⟩).get (by rfl)

def c8NodeB : AssetNode :=
  ((from_assets [c8DefB]).asset_nodes_by_key ⟨["b"]⟩).get (by rfl)

/-- C8 witness -/
theorem adjacency_symmetric_witness :
    (c8NodeB.parent_keys ⟨["a"]⟩ = true ↔ c8NodeA.child_keys ⟨["b"]⟩ = true) :=
  adjacency_symmetric [c8DefB] ⟨["b"]⟩ ⟨["a"]⟩ c8NodeB c8NodeA rfl rfl

theorem mem_of_deps_of {d : AssetsDefinition} {a b : AssetKey}
    (h : b ∈ d.deps_of a) : b ∈ d.dependency_keys := by
  unfold AssetsDefinition.deps_of at h
  unfold AssetsDefinition.dependency_keys
  cases hf : d.asset_deps.find? (fun p => p.1 == a) with
  | none => rw [hf] at h; simp at h
  | some pr =>
    rw [hf] at h
    simp only [Option.map_some', Option.getD_some] at h
    refine List.mem_append.mpr (Or.inl ?_)
    exact List.mem_flatMap.mpr ⟨pr, List.mem_of_find?_eq_some hf, h⟩

theorem mem_stub_keys {assets : List AssetsDefinition} {k : AssetKey}
    (href : ∃ d ∈ assets, k ∈ d.dependency_keys)
    (hcov : ∀ d ∈ assets, k ∉ d.keys) : k ∈ stub_keys assets := by
  unfold stub_keys
  refine List.mem_filter.mpr ⟨?_, ?_⟩
  · refine List.mem_dedup.mpr ?_
    refine (sortBy_perm assetKeyLe _).mem_iff.mpr ?_
    rcases href with ⟨d, hd, hk⟩
    exact List.mem_flatMap.mpr ⟨d, hd, hk⟩
  · cases hc : (assets.flatMap fun d => d.keys).contains k
    · rfl
    · exfalso
      rcases List.mem_flatMap.mp (List.elem_iff.mp hc) with ⟨d, hd, hk⟩
      exact hcov d hd hk

theorem node_isSome_of_produced {defs : List AssetsDefinition} {b : AssetKey}
    {d : AssetsDefinition} (hd : d ∈ defs) (hk : b ∈ d.keys) :
    (asset_nodes_of defs b).isSome = true := by
  unfold asset_nodes_of
  rw [Option.isSome_map']
  exact List.find?_isSome.mpr
    ⟨d, List.mem_reverse.mpr hd, List.elem_iff.mpr hk⟩

/-- C5 -/
theorem stub_synthesis_and_closure (assets : List AssetsDefinition) :
    (∀ k : AssetKey,
      (∃ d ∈ assets, k ∈ d.dependency_keys) →
      (∀ d ∈ assets, k ∉ d.keys) →
      (stub_asset k ∈ normalize_assets assets
        ∧ (stub_asset k).is_executable = false
        ∧ (stub_asset k).is_external = true
        ∧ (stub_asset k).auto_created_stub = true))
    ∧ (∀ (a b : AssetKey) (na : AssetNode),
      (from_assets assets).asset_nodes_by_key a = some na →
      (na.parent_keys b = true ∨ na.child_keys b = true) →
      ((from_assets assets).asset_nodes_by_key b).isSome = true) := by
  constructor
  · intro k href hcov
    refine ⟨?_, rfl, rfl, rfl⟩
    unfold normalize_assets
    refine List.mem_append.mpr (Or.inr ?_)
    exact List.mem_map_of_mem stub_asset (mem_stub_keys href hcov)
  · intro a b na ha hadj
    have ha' : asset_nodes_of (normalize_assets assets) a = some na := ha
    show (asset_nodes_of (normalize_assets assets) b).isSome = true
    unfold asset_nodes_of at ha'
    rcases Option.map_eq_some'.mp ha' with ⟨da, hfind, hna⟩
    rcases hadj with hpar | hchild
    · rw [← hna] at hpar
      have hup : upstream_of (normalize_assets assets) a b = true := hpar
      rcases List.any_eq_true.mp hup with ⟨d, hd, hdd⟩
      rw [Bool.and_eq_true] at hdd
      rcases hdd with ⟨_, hdep⟩
      have hdepmem : b ∈ d.deps_of a := List.elem_iff.mp hdep
      have hbref : b ∈ d.dependency_keys := mem_of_deps_of hdepmem
      rcases List.mem_append.mp hd with hdassets | hdstub
      · by_cases hcov : ∃ d' ∈ assets, b ∈ d'.keys
        · rcases hcov with ⟨d', hd', hbk⟩
          exact node_isSome_of_produced (List.mem_append.mpr (Or.inl hd')) hbk
        · push_neg at hcov
          have hbs : b ∈ stub_keys assets :=
            mem_stub_keys ⟨d, hdassets, hbref⟩ hcov
          refine node_isSome_of_produced
            (List.mem_append.mpr (Or.inr (List.mem_map_of_mem stub_asset hbs)))
            ?_
          simp [stub_asset]
      · rcases List.mem_map.mp hdstub with ⟨k', _, hk'⟩
        rw [← hk'] at hdepmem
        simp [AssetsDefinition.deps_of, stub_asset] at hdepmem
    · rw [← hna] at hchild
      have hdn : downstream_of (normalize_assets assets) a b = true := hchild
      rcases List.any_eq_true.mp hdn with ⟨d, hd, hdd⟩
      rw [Bool.and_eq_true] at hdd
      rcases hdd with ⟨hbk, _⟩
      exact node_isSome_of_produced hd (List.elem_iff.mp hbk)

/-- C5 witness -/
theorem stub_synthesis_and_closure_witness :
    stub_asset ⟨["a"]⟩ ∈ normalize_assets [c8DefB]
    ∧ ((from_assets [c8DefB]).asset_nodes_by_key ⟨["a"]⟩).isSome = true :=
  ⟨((stub_synthesis_and_closure [c8DefB]).1 ⟨["a"]⟩
      ⟨c8DefB, by simp, by decide⟩ (by decide)).1,
    (stub_synthesis_and_closure [c8DefB]).2 ⟨["b"]⟩ ⟨["a"]⟩ c8NodeB rfl
      (Or.inl (by decide))⟩

/-- The way an identifier is owned by a definition inside a graph: an
asset key resolves to a node whose owning definition it is, a check key
is bound to the definition in the check-key mapping. -/
def owns_identifier (g : AssetGraph) (d : AssetsDefinition) :
    AssetKeyOrCheckKey → Prop
  | .asset k => ∃ n, g.asset_nodes_by_key k = some n ∧ n.key = k
      ∧ n.assets_def = d ∧ k ∈ d.keys
  | .check ck => g.assets_defs_by_check_key ck = some d ∧ ck ∈ d.check_keys

/-- C2 -/
theorem execution_set_spec (g : AssetGraph) (d : AssetsDefinition)
    (ident : AssetKeyOrCheckKey) (h : owns_identifier g d ident) :
    (d.can_subset = false → 1 < d.asset_and_check_keys.card →
      g.get_execution_set_asset_and_check_keys ident
        = .ok d.asset_and_check_keys)
    ∧ ((d.can_subset = true ∨ d.asset_and_check_keys.card ≤ 1) →
      g.get_execution_set_asset_and_check_keys ident = .ok {ident}) := by
  have hsingle : d.asset_and_check_keys.card ≤ 1 →
      ident ∈ d.asset_and_check_keys → d.asset_and_check_keys = {ident} := by
    intro hcard hmem
    exact Finset.eq_singleton_iff_unique_mem.mpr
      ⟨hmem, fun b hb => Finset.card_le_one.mp hcard b hb ident hmem⟩
  cases ident with
  | asset k =>
    rcases h with ⟨n, hn, hkey, hdef, hk⟩
    have hmem : AssetKeyOrCheckKey.asset k ∈ d.asset_and_check_keys := by
      unfold AssetsDefinition.asset_and_check_keys
      rw [List.mem_toFinset]
      exact List.mem_append.mpr (Or.inl (List.mem_map_of_mem _ hk))
    have heval : g.get_execution_set_asset_and_check_keys (.asset k)
        = .ok n.execution_set_asset_and_check_keys := by
      simp only [AssetGraph.get_execution_set_asset_and_check_keys,
        AssetGraph.get, hn]
    rw [heval]
    unfold AssetNode.execution_set_asset_and_check_keys
    rw [hdef, hkey]
    constructor
    · intro hsub _
      rw [if_neg (by simp [hsub])]
    · intro hor
      rcases hor with hsub | hcard
      · rw [if_pos hsub]
      · by_cases hsub : d.can_subset = true
        · rw [if_pos hsub]
        · rw [if_neg hsub, hsingle hcard hmem]
  | check ck =>
    rcases h with ⟨hbind, hck⟩
    have hmem : AssetKeyOrCheckKey.check ck ∈ d.asset_and_check_keys := by
      unfold AssetsDefinition.asset_and_check_keys
      rw [List.mem_toFinset]
      exact List.mem_append.mpr (Or.inr (List.mem_map_of_mem _ hck))
    have heval : g.get_execution_set_asset_and_check_keys (.check ck)
        = .ok (if d.can_subset then {AssetKeyOrCheckKey.check ck}
            else d.asset_and_check_keys) := by
      simp only [AssetGraph.get_execution_set_asset_and_check_keys, hbind]
    rw [heval]
    constructor
    · intro hsub _
      rw [if_neg (by simp [hsub])]
    · intro hor
      rcases hor with hsub | hcard
      · rw [if_pos hsub]
      · by_cases hsub : d.can_subset = true
        · rw [if_pos hsub]
        · rw [if_neg hsub, hsingle hcard hmem]

def c2ka : AssetKey := ⟨["x"]⟩
def c2kb : AssetKey := ⟨["y"]⟩

def c2d : AssetsDefinition :=
  mkDef [c2ka, c2kb] [] [] false true true none [] (.op "n" [])

def c2Graph : AssetGraph :=
  { asset_nodes_by_key := fun k =>
      if k = c2ka then some (mkNode c2ka c2d)
      else if k = c2kb then some (mkNode c2kb c2d) else none
    assets_defs_by_check_key := fun _ => none
    asset_keys_by_node_output_handle := fun _ => none
    is_remote := false
    repository_handle := fun _ => "" }

/-- C2 witness -/
theorem execution_set_spec_witness :
    c2Graph.get_execution_set_asset_and_check_keys (.asset c2ka)
      = .ok c2d.asset_and_check_keys :=
  (execution_set_spec c2Graph c2d (.asset c2ka)
    ⟨mkNode c2ka c2d, rfl, rfl, rfl, by decide⟩).1 rfl (by decide)

/-- C10 -/
theorem check_key_lookup_divergence (assets : List AssetsDefinition)
    (ck : AssetCheckKey)
    (h : (from_assets assets).assets_defs_by_check_key ck = none) :
    (from_assets assets).get_spec_for_asset_check ck = none
    ∧ (from_assets assets).get_execution_set_asset_and_check_keys (.check ck)
      = .error (.keyError (.check ck)) := by
  constructor
  · simp only [AssetGraph.get_spec_for_asset_check, h]
  · simp only [AssetGraph.get_execution_set_asset_and_check_keys, h]

/-- C10 witness -/
theorem check_key_lookup_divergence_witness :
    (from_assets []).get_spec_for_asset_check ⟨⟨["z"]⟩, "c"⟩ = none
    ∧ (from_assets []).get_execution_set_asset_and_check_keys
        (.check ⟨⟨["z"]⟩, "c"⟩)
      = .error (.keyError (.check ⟨⟨["z"]⟩, "c"⟩)) :=
  check_key_lookup_divergence [] ⟨⟨["z"]⟩, "c"⟩ rfl

theorem alias_sequence_from_length (c : String → Nat)
    (l : List AssetsDefinition) :
    (alias_sequence_from c l).length = l.length := by
  induction l generalizing c with
  | nil => rfl
  | cons d rest ih =>
    by_cases hc : c d.node_def.name ≠ 0
    · simp only [alias_sequence_from, if_pos hc, List.length_cons, ih]
    · simp only [alias_sequence_from, if_neg hc, List.length_cons, ih]

theorem update_count_shift (c : String → Nat) (n : String) (hc : c n = 0) :
    update_count c n 1 = update_count c n (c n + 1) := by
  rw [hc]

theorem get_zero_of_eq_cons {l : List (String × AssetsDefinition)}
    {x : String × AssetsDefinition} {t : List (String × AssetsDefinition)}
    (hl : l = x :: t) (h : 0 < l.length) : l.get ⟨0, h⟩ = x := by
  subst hl
  rfl

theorem get_succ_of_eq_cons {l : List (String × AssetsDefinition)}
    {x : String × AssetsDefinition} {t : List (String × AssetsDefinition)}
    (hl : l = x :: t) (i : Nat) (h : i + 1 < l.length) (h2 : i < t.length) :
    l.get ⟨i + 1, h⟩ = t.get ⟨i, h2⟩ := by
  subst hl
  rfl

theorem alias_sequence_from_cons (c : String → Nat) (d : AssetsDefinition)
    (rest : List AssetsDefinition) :
    ∃ hd : String × AssetsDefinition,
      alias_sequence_from c (d :: rest)
        = hd :: alias_sequence_from
          (update_count c d.node_def.name (c d.node_def.name + 1)) rest
      ∧ hd = (if c d.node_def.name + 1 = 1 then d.node_def.name
          else d.node_def.name ++ "_" ++ toString (c d.node_def.name + 1), d) := by
  by_cases hc0 : c d.node_def.name = 0
  · refine ⟨(d.node_def.name, d), ?_, ?_⟩
    · simp only [alias_sequence_from]
      rw [if_neg (by simpa using hc0), update_count_shift c _ hc0]
    · rw [if_pos (by omega)]
  · refine ⟨(d.node_def.name ++ "_" ++ toString (c d.node_def.name + 1), d),
      ?_, ?_⟩
    · simp only [alias_sequence_from]
      rw [if_pos hc0]
    · rw [if_neg (by omega)]

theorem alias_sequence_from_get (l : List AssetsDefinition) :
    ∀ (c : String → Nat) (i : Nat) (h : i < l.length),
    (alias_sequence_from c l).get
        ⟨i, by rw [alias_sequence_from_length]; exact h⟩ =
      (let d := l.get ⟨i, h⟩
       let n := d.node_def.name
       let j := c n + ((l.take (i + 1)).filter
         (fun e => e.node_def.name == n)).length
       (if j = 1 then n else n ++ "_" ++ toString j, d)) := by
  induction l with
  | nil =>
    intro c i h
    simp at h
  | cons d rest ih =>
    intro c i h
    obtain ⟨hd, hlist, hhd⟩ := alias_sequence_from_cons c d rest
    cases i with
    | zero =>
      rw [get_zero_of_eq_cons hlist, hhd]
      show _ = (let e := d
        let n := e.node_def.name
        let j := c n + (((d :: rest).take 1).filter
          (fun x => x.node_def.name == n)).length
        (if j = 1 then n else n ++ "_" ++ toString j, e))
      simp only [List.take_succ_cons, List.take_zero, List.filter_cons,
        beq_self_eq_true, if_pos, List.filter_nil, List.length_cons,
        List.length_nil, Nat.zero_add]
    | succ i =>
      have h' : i < rest.length := by simpa using h
      rw [get_succ_of_eq_cons hlist i _
        (by rw [alias_sequence_from_length]; exact h'),
        ih (update_count c d.node_def.name (c d.node_def.name + 1)) i h']
      show (let e := rest.get ⟨i, h'⟩
        let n := e.node_def.name
        let j := update_count c d.node_def.name (c d.node_def.name + 1) n
          + ((rest.take (i + 1)).filter
            (fun x => x.node_def.name == n)).length
        (if j = 1 then n else n ++ "_" ++ toString j, e))
        = (let e := (d :: rest).get ⟨i + 1, h⟩
        let n := e.node_def.name
        let j := c n + (((d :: rest).take (i + 1 + 1)).filter
          (fun x => x.node_def.name == n)).length
        (if j = 1 then n else n ++ "_" ++ toString j, e))
      have hget : (d :: rest).get ⟨i + 1, h⟩ = rest.get ⟨i, h'⟩ := rfl
      simp only [hget]
      have hkey : update_count c d.node_def.name (c d.node_def.name + 1)
            (rest.get ⟨i, h'⟩).node_def.name
          + ((rest.take (i + 1)).filter
            (fun x => x.node_def.name
              == (rest.get ⟨i, h'⟩).node_def.name)).length
          = c (rest.get ⟨i, h'⟩).node_def.name
          + (((d :: rest).take (i + 1 + 1)).filter
            (fun x => x.node_def.name
              == (rest.get ⟨i, h'⟩).node_def.name)).length := by
        simp only [List.take_succ_cons, List.filter_cons]
        by_cases hnn : (d.node_def.name
            == (rest.get ⟨i, h'⟩).node_def.name) = true
        · have heq : (rest.get ⟨i, h'⟩).node_def.name = d.node_def.name :=
            (beq_iff_eq.mp hnn).symm
          rw [if_pos hnn]
          have heq2 : rest[i].node_def.name = d.node_def.name := heq
          simp [List.length_cons, update_count, heq, heq2]
          omega
        · have hne : (rest.get ⟨i, h'⟩).node_def.name ≠ d.node_def.name := by
            intro hh
            exact absurd (beq_iff_eq.mpr hh.symm) (by simpa using hnn)
          rw [if_neg (by simpa using hnn)]
          simp only [update_count, if_neg hne]
      simp only [hkey]

/-- C7 -/
theorem alias_suffix_assignment (assets_defs : List AssetsDefinition)
    (i : Nat)
    (h : i < ((sortBy assets_def_le assets_defs).filter
      (fun d => d.is_executable)).length) :
    (alias_sequence ((sortBy assets_def_le assets_defs).filter
        (fun d => d.is_executable))).get
        ⟨i, by
          unfold alias_sequence
          rw [alias_sequence_from_length]
          exact h⟩ =
      (let l := (sortBy assets_def_le assets_defs).filter
        (fun d => d.is_executable)
       let d := l.get ⟨i, h⟩
       let n := d.node_def.name
       let j := ((l.take (i + 1)).filter
         (fun e => e.node_def.name == n)).length
       (if j = 1 then n else n ++ "_" ++ toString j, d)) := by
  have hmain := alias_sequence_from_get
    ((sortBy assets_def_le assets_defs).filter (fun d => d.is_executable))
    (fun _ => 0) i h
  simpa [alias_sequence] using hmain

def c7d1 : AssetsDefinition :=
  mkDef [⟨["p"]⟩] [] [] false true true none [] (.op "the_op" [])

def c7d2 : AssetsDefinition :=
  mkDef [⟨["q"]⟩] [] [] false true true none [] (.op "the_op" [])

theorem c7_filtered_length :
    ((sortBy assets_def_le [c7d1, c7d2]).filter
      (fun d => d.is_executable)).length = 2 := rfl

/-- C7 witness -/
theorem alias_suffix_assignment_witness :
    (alias_sequence ((sortBy assets_def_le [c7d1, c7d2]).filter
        (fun d => d.is_executable))).get
        ⟨1, by
          unfold alias_sequence
          rw [alias_sequence_from_length, c7_filtered_length]
          omega⟩
      = ("the_op_2", c7d2) :=
  (alias_suffix_assignment [c7d1, c7d2] 1
    (by rw [c7_filtered_length]; omega)).trans (by rfl)

theorem alias_sequence_from_map_snd (c : String → Nat)
    (l : List AssetsDefinition) :
    (alias_sequence_from c l).map (fun p => p.2) = l := by
  induction l generalizing c with
  | nil => rfl
  | cons d rest ih =>
    obtain ⟨hd, hlist, hhd⟩ := alias_sequence_from_cons c d rest
    rw [hlist, hhd]
    simp [ih]

theorem foldl_dictInsert_from (l : List (String × AssetsDefinition)) :
    ∀ acc : List (String × AssetsDefinition),
    ((acc ++ l).map (fun p => p.1)).Nodup →
    l.foldl dictInsert acc = acc ++ l := by
  induction l with
  | nil =>
    intro acc _
    simp
  | cons kv rest ih =>
    intro acc hnd
    have hnotin : ¬ kv.1 ∈ acc.map (fun p => p.1) := by
      intro hmem
      rw [List.map_append] at hnd
      rcases List.nodup_append.mp hnd with ⟨_, _, hdisj⟩
      exact hdisj hmem (by simp)
    have hins : dictInsert acc kv = acc ++ [kv] := by
      unfold dictInsert
      rw [if_neg ?_]
      rw [Bool.not_eq_true]
      rw [Bool.eq_false_iff]
      intro hany
      rcases List.any_eq_true.mp hany with ⟨pr, hpr, hbeq⟩
      exact hnotin (by
        rcases beq_iff_eq.mp hbeq with h
        exact List.mem_map.mpr ⟨pr, hpr, h⟩)
    show (rest.foldl dictInsert (dictInsert acc kv)) = acc ++ kv :: rest
    rw [hins, ih (acc ++ [kv]) (by simpa using hnd)]
    simp

theorem foldl_dictInsert_eq_self (l : List (String × AssetsDefinition))
    (h : (l.map (fun p => p.1)).Nodup) : l.foldl dictInsert [] = l := by
  simpa using foldl_dictInsert_from l [] (by simpa using h)

theorem find?_map_eq_of_unique {α β : Type _} {p : α → Bool} {f : α → β}
    {l : List α} {v : β} (hex : ∃ x ∈ l, p x = true ∧ f x = v)
    (huniq : ∀ x ∈ l, p x = true → f x = v) :
    (l.find? p).map f = some v := by
  rcases hex with ⟨x, hx, hpx, _⟩
  cases hf : l.find? p with
  | none =>
    rw [List.find?_eq_none] at hf
    exact absurd hpx (hf x hx)
  | some y =>
    have hy := List.find?_some hf
    have hmem := List.mem_of_find?_eq_some hf
    simp [huniq y hmem hy]

theorem stub_has_no_checks (k : AssetKey) (ck : AssetCheckKey) :
    (stub_asset k).check_keys.contains ck = false := rfl

/-- C3 amended -/
theorem check_binding (assets : List AssetsDefinition)
    (d : AssetsDefinition) (ck : AssetCheckKey)
    (hd : d ∈ assets) (hck : ck ∈ d.check_keys)
    (hex : d.is_executable = true)
    (huniq : ∀ d' ∈ assets, ck ∈ d'.check_keys → d' = d)
    (halias : ((alias_sequence
      ((sortBy assets_def_le (normalize_assets assets)).filter
        (fun x => x.is_executable))).map (fun p => p.1)).Nodup) :
    (from_assets assets).assets_defs_by_check_key ck = some d
    ∧ ∃ n, (from_assets assets).asset_nodes_by_key ck.asset_key = some n
        ∧ n.check_keys ck = true := by
  have hd_norm : d ∈ normalize_assets assets :=
    List.mem_append.mpr (Or.inl hd)
  have hmem_norm_cases : ∀ d' ∈ normalize_assets assets,
      ck ∈ d'.check_keys → d' = d := by
    intro d' hd' hck'
    rcases List.mem_append.mp hd' with hda | hds
    · exact huniq d' hda hck'
    · rcases List.mem_map.mp hds with ⟨k', _, hk'⟩
      rw [← hk'] at hck'
      simp [stub_asset, AssetsDefinition.check_keys] at hck'
  constructor
  · show check_defs_of
      (build_assets_defs_by_op_node_names (normalize_assets assets)) ck
      = some d
    unfold build_assets_defs_by_op_node_names
    rw [foldl_dictInsert_eq_self _ halias]
    unfold check_defs_of
    set s := (sortBy assets_def_le (normalize_assets assets)).filter
      (fun x => x.is_executable) with hs
    have hvals : (alias_sequence s).map (fun p => p.2) = s :=
      alias_sequence_from_map_snd _ s
    have hd_s : d ∈ s := by
      rw [hs]
      refine List.mem_filter.mpr ⟨?_, hex⟩
      exact (sortBy_perm assets_def_le _).mem_iff.mpr hd_norm
    have hs_norm : ∀ x ∈ s, x ∈ normalize_assets assets := by
      intro x hx
      rw [hs] at hx
      exact (sortBy_perm assets_def_le _).subset (List.mem_filter.mp hx).1
    rcases List.mem_map.mp (hvals ▸ hd_s) with ⟨pr, hpr, hprd⟩
    refine find?_map_eq_of_unique ⟨pr, List.mem_reverse.mpr hpr, ?_, hprd⟩ ?_
    · rw [List.elem_iff]
      rw [hprd]
      exact hck
    · intro pr' hpr' hp'
      have hsnd : pr'.2 ∈ s := by
        rw [← hvals]
        exact List.mem_map_of_mem _ (List.mem_reverse.mp hpr')
      exact hmem_norm_cases pr'.2 (hs_norm _ hsnd) (List.elem_iff.mp hp')
  · have href : ck.asset_key ∈ d.dependency_keys := by
      unfold AssetsDefinition.dependency_keys
      exact List.mem_append.mpr (Or.inr (List.mem_map.mpr ⟨ck, hck, rfl⟩))
    have hsome : ((from_assets assets).asset_nodes_by_key ck.asset_key).isSome
        = true := by
      show (asset_nodes_of (normalize_assets assets) ck.asset_key).isSome
        = true
      by_cases hcov : ∃ d' ∈ assets, ck.asset_key ∈ d'.keys
      · rcases hcov with ⟨d', hd', hk'⟩
        exact node_isSome_of_produced (List.mem_append.mpr (Or.inl hd')) hk'
      · push_neg at hcov
        have hbs : ck.asset_key ∈ stub_keys assets :=
          mem_stub_keys ⟨d, hd, href⟩ hcov
        refine node_isSome_of_produced
          (List.mem_append.mpr (Or.inr (List.mem_map_of_mem stub_asset hbs)))
          ?_
        simp [stub_asset]
    rcases Option.isSome_iff_exists.mp hsome with ⟨n, hn⟩
    refine ⟨n, hn, ?_⟩
    have hn' : asset_nodes_of (normalize_assets assets) ck.asset_key
        = some n := hn
    unfold asset_nodes_of at hn'
    rcases Option.map_eq_some'.mp hn' with ⟨dn, _, hnode⟩
    rw [← hnode]
    show check_keys_for (normalize_assets assets) ck.asset_key ck = true
    unfold check_keys_for
    rw [Bool.and_eq_true]
    refine ⟨by simp, ?_⟩
    exact List.any_eq_true.mpr ⟨d, hd_norm, List.elem_iff.mpr hck⟩

def c3x : AssetsDefinition :=
  mkDef [] [] [("c", ⟨"c", ⟨["t"]⟩⟩)] false false false none [] (.op "x" [])

/-- C3 counterexample -/
theorem check_binding_counterexample :
    c3x.check_keys = [⟨⟨["t"]⟩, "c"⟩]
    ∧ (from_assets [c3x]).assets_defs_by_check_key ⟨⟨["t"]⟩, "c"⟩ = none
    ∧ (from_assets [c3x]).get_spec_for_asset_check ⟨⟨["t"]⟩, "c"⟩ = none :=
  ⟨rfl, rfl, rfl⟩

def c3d : AssetsDefinition :=
  mkDef [⟨["m"]⟩] [] [("c", ⟨"c", ⟨["m"]⟩⟩)] false true true none []
    (.op "m_op" [])

/-- C3 witness -/
theorem check_binding_witness :
    (from_assets [c3d]).assets_defs_by_check_key ⟨⟨["m"]⟩, "c"⟩ = some c3d
    ∧ ∃ n, (from_assets [c3d]).asset_nodes_by_key ⟨["m"]⟩ = some n
        ∧ n.check_keys ⟨⟨["m"]⟩, "c"⟩ = true :=
  check_binding [c3d] c3d ⟨⟨["m"]⟩, "c"⟩ (by simp) (by decide) rfl
    (by
      intro d' hd' _
      simpa using hd')
    (by
      rw [show ((alias_sequence
        ((sortBy assets_def_le (normalize_assets [c3d])).filter
          (fun x => x.is_executable))).map (fun p => p.1)) = ["m_op"]
        from rfl]
      simp)

/-- The loop body of the fuel-bounded destination walk, parametric in the
recursive call used for sub-nodes. -/
def destinationsForMappingsFuel
    (recur : String → NodeDefinition → NodeHandle →
      Option (List NodeInputHandle)) :
    String → List (String × NodeDefinition) → List (OutputPointer × EdgeInput) →
    NodeHandle → List OutputMapping → Option (List NodeInputHandle)
  | _, _, _, _, [] => some []
  | output_name, nodes, es, handle, m :: rest =>
    if m.graph_output_name == output_name then
      match lookupNode nodes m.maps_from.node_name with
      | none => none
      | some output_node =>
        match recur m.maps_from.output_name output_node
            (handle.child m.maps_from.node_name) with
        | none => none
        | some inner =>
          if output_node.has_output m.maps_from.output_name then
            match destinationsForMappingsFuel recur output_name nodes es
                handle rest with
            | none => none
            | some tail =>
              some (inner ++
                (es.filter (fun e => e.1 == m.maps_from)).map
                  (fun e => NodeInputHandle.mk (handle.child e.2.node_name)
                    e.2.input_name) ++ tail)
          else none
    else destinationsForMappingsFuel recur output_name nodes es handle rest

/-- The fuel-bounded variant of `_resolve_output_to_destinations`: one
unit of fuel is consumed per nesting level, so fuel equal to the nesting
depth suffices (the depth-bound theorem below). -/
def resolveDestinationsFuel :
    Nat → String → NodeDefinition → NodeHandle →
    Option (List NodeInputHandle)
  | _, _, .op _ _, _ => some []
  | 0, _, .graph _ _ _ _, _ => none
  | fuel + 1, output_name, .graph _ nodes maps es, handle =>
    destinationsForMappingsFuel (resolveDestinationsFuel fuel)
      output_name nodes es handle maps

theorem destinationsForMappingsFuel_eq
    (recur : String → NodeDefinition → NodeHandle →
      Option (List NodeInputHandle))
    (out : String) (nodes : List (String × NodeDefinition))
    (es : List (OutputPointer × EdgeInput)) (handle : NodeHandle)
    (hrec : ∀ nd', (∃ nm, lookupNode nodes nm = some nd') →
      ∀ o hh, recur o nd' hh = resolve_output_to_destinations o nd' hh) :
    ∀ ml, destinationsForMappingsFuel recur out nodes es handle ml
      = destinationsForMappings out nodes es handle ml := by
  intro ml
  induction ml with
  | nil => simp [destinationsForMappingsFuel, destinationsForMappings]
  | cons m rest ih =>
    simp only [destinationsForMappingsFuel, destinationsForMappings]
    by_cases hm : (m.graph_output_name == out) = true
    · rw [if_pos hm, if_pos hm]
      cases hlk : lookupNode nodes m.maps_from.node_name with
      | none => rfl
      | some child =>
        have h1 := hrec child ⟨m.maps_from.node_name, hlk⟩
          m.maps_from.output_name (handle.child m.maps_from.node_name)
        simp only [h1, ih]
    · rw [if_neg hm, if_neg hm, ih]

theorem resolveDestinationsFuel_adequate :
    ∀ (fuel : Nat) (nd : NodeDefinition), nd.depth ≤ fuel →
    ∀ out handle, resolveDestinationsFuel fuel out nd handle
      = resolve_output_to_destinations out nd handle := by
  intro fuel
  induction fuel with
  | zero =>
    intro nd hd out handle
    cases nd with
    | op n outs => simp [resolveDestinationsFuel, resolve_output_to_destinations]
    | graph g nodes maps es =>
      exfalso
      simp only [NodeDefinition.depth] at hd
      omega
  | succ fuel ih =>
    intro nd hd out handle
    cases nd with
    | op n outs => simp [resolveDestinationsFuel, resolve_output_to_destinations]
    | graph g nodes maps es =>
      show destinationsForMappingsFuel (resolveDestinationsFuel fuel)
          out nodes es handle maps
        = resolve_output_to_destinations out (.graph g nodes maps es) handle
      rw [destinationsForMappingsFuel_eq]
      · simp [resolve_output_to_destinations]
      · intro nd' hex o hh
        rcases hex with ⟨nm, hnm⟩
        refine ih nd' ?_ o hh
        have h1 := depth_lookupNode _ _ _ hnm
        simp only [NodeDefinition.depth] at hd
        omega

/-- The downstream input handles reachable from one output of a node
through its internal output mappings: either an internal edge consumes
the mapped-from output at this level, or the walk descends into the
producing sub-node. -/
inductive ReachesDest :
    String → NodeDefinition → NodeHandle → NodeInputHandle → Prop where
  | local_edge {output_name : String} {g : String}
      {nodes : List (String × NodeDefinition)} {maps : List OutputMapping}
      {es : List (OutputPointer × EdgeInput)} {handle : NodeHandle}
      (m : OutputMapping) (e : OutputPointer × EdgeInput) :
      m ∈ maps → m.graph_output_name = output_name → e ∈ es →
      e.1 = m.maps_from →
      ReachesDest output_name (.graph g nodes maps es) handle
        ⟨handle.child e.2.node_name, e.2.input_name⟩
  | descend {output_name : String} {g : String}
      {nodes : List (String × NodeDefinition)} {maps : List OutputMapping}
      {es : List (OutputPointer × EdgeInput)} {handle : NodeHandle}
      {dest : NodeInputHandle} (m : OutputMapping) (child : NodeDefinition) :
      m ∈ maps → m.graph_output_name = output_name →
      lookupNode nodes m.maps_from.node_name = some child →
      ReachesDest m.maps_from.output_name child
        (handle.child m.maps_from.node_name) dest →
      ReachesDest output_name (.graph g nodes maps es) handle dest

/-- The per-mapping-list form of reachability used while walking the
mapping list of one graph level. -/
def MapsDest (output_name : String) (nodes : List (String × NodeDefinition))
    (es : List (OutputPointer × EdgeInput)) (handle : NodeHandle)
    (ml : List OutputMapping) (dest : NodeInputHandle) : Prop :=
  ∃ m ∈ ml, m.graph_output_name = output_name ∧
    ((∃ child, lookupNode nodes m.maps_from.node_name = some child ∧
        ReachesDest m.maps_from.output_name child
          (handle.child m.maps_from.node_name) dest)
     ∨ (∃ e ∈ es, e.1 = m.maps_from
        ∧ dest = ⟨handle.child e.2.node_name, e.2.input_name⟩))

theorem reaches_graph_iff (output_name : String) (g : String)
    (nodes : List (String × NodeDefinition)) (maps : List OutputMapping)
    (es : List (OutputPointer × EdgeInput)) (handle : NodeHandle)
    (dest : NodeInputHandle) :
    ReachesDest output_name (.graph g nodes maps es) handle dest
      ↔ MapsDest output_name nodes es handle maps dest := by
  constructor
  · intro hr
    cases hr with
    | local_edge m e hm hname he hfrom =>
      exact ⟨m, hm, hname, Or.inr ⟨e, he, hfrom, rfl⟩⟩
    | descend m child hm hname hlk hrec =>
      exact ⟨m, hm, hname, Or.inl ⟨child, hlk, hrec⟩⟩
  · rintro ⟨m, hm, hname, hcase⟩
    rcases hcase with ⟨child, hlk, hrec⟩ | ⟨e, he, hfrom, hdest⟩
    · exact ReachesDest.descend m child hm hname hlk hrec
    · rw [hdest]
      exact ReachesDest.local_edge m e hm hname he hfrom

theorem destinationsForMappings_cons_neg (out : String)
    (nodes : List (String × NodeDefinition))
    (es : List (OutputPointer × EdgeInput)) (handle : NodeHandle)
    (m : OutputMapping) (rest : List OutputMapping)
    (hm : ¬ (m.graph_output_name == out) = true) :
    destinationsForMappings out nodes es handle (m :: rest)
      = destinationsForMappings out nodes es handle rest := by
  simp only [destinationsForMappings]
  rw [if_neg hm]

theorem destinationsForMappings_cons_nolookup (out : String)
    (nodes : List (String × NodeDefinition))
    (es : List (OutputPointer × EdgeInput)) (handle : NodeHandle)
    (m : OutputMapping) (rest : List OutputMapping)
    (hm : (m.graph_output_name == out) = true)
    (hlk : lookupNode nodes m.maps_from.node_name = none) :
    destinationsForMappings out nodes es handle (m :: rest) = none := by
  simp only [destinationsForMappings]
  rw [if_pos hm]
  split
  · rfl
  · next output_node heq =>
    rw [hlk] at heq
    cases heq

theorem destinationsForMappings_cons_pos (out : String)
    (nodes : List (String × NodeDefinition))
    (es : List (OutputPointer × EdgeInput)) (handle : NodeHandle)
    (m : OutputMapping) (rest : List OutputMapping)
    (hm : (m.graph_output_name == out) = true) (child : NodeDefinition)
    (hlk : lookupNode nodes m.maps_from.node_name = some child) :
    destinationsForMappings out nodes es handle (m :: rest)
      = (match resolve_output_to_destinations m.maps_from.output_name child
            (handle.child m.maps_from.node_name) with
        | none => none
        | some inner =>
          if child.has_output m.maps_from.output_name then
            match destinationsForMappings out nodes es handle rest with
            | none => none
            | some tail =>
              some (inner ++
                (es.filter (fun e => e.1 == m.maps_from)).map
                  (fun e => NodeInputHandle.mk (handle.child e.2.node_name)
                    e.2.input_name) ++ tail)
          else none) := by
  simp only [destinationsForMappings]
  rw [if_pos hm]
  split
  · next heq =>
    rw [hlk] at heq
    cases heq
  · next output_node heq =>
    rw [hlk] at heq
    obtain rfl : output_node = child := by
      simpa using heq.symm
    rfl

theorem destinations_mem_iff_aux (out : String)
    (nodes : List (String × NodeDefinition))
    (es : List (OutputPointer × EdgeInput)) (handle : NodeHandle)
    (hchild : ∀ child : NodeDefinition,
      (∃ nm, lookupNode nodes nm = some child) →
      ∀ o hh l', resolve_output_to_destinations o child hh = some l' →
      ∀ dest, (dest ∈ l' ↔ ReachesDest o child hh dest)) :
    ∀ (ml : List OutputMapping) (l : List NodeInputHandle),
    destinationsForMappings out nodes es handle ml = some l →
    ∀ dest, (dest ∈ l ↔ MapsDest out nodes es handle ml dest) := by
  intro ml
  induction ml with
  | nil =>
    intro l hl dest
    have hl' : l = [] := by
      simpa [destinationsForMappings] using hl.symm
    subst hl'
    simp [MapsDest]
  | cons m rest ih =>
    intro l hl dest
    by_cases hm : (m.graph_output_name == out) = true
    · have hmname : m.graph_output_name = out := beq_iff_eq.mp hm
      cases hlk : lookupNode nodes m.maps_from.node_name with
      | none =>
        rw [destinationsForMappings_cons_nolookup out nodes es handle m rest
          hm hlk] at hl
        cases hl
      | some child =>
        rw [destinationsForMappings_cons_pos out nodes es handle m rest
          hm child hlk] at hl
        cases hrc : resolve_output_to_destinations m.maps_from.output_name
            child (handle.child m.maps_from.node_name) with
        | none =>
          rw [hrc] at hl
          cases hl
        | some inner =>
          simp only [hrc] at hl
          by_cases hout : child.has_output m.maps_from.output_name = true
          · rw [if_pos hout] at hl
            cases htail : destinationsForMappings out nodes es handle rest with
            | none =>
              rw [htail] at hl
              cases hl
            | some tail =>
              simp only [htail] at hl
              have hleq : inner ++
                  (es.filter (fun e => e.1 == m.maps_from)).map
                    (fun e => NodeInputHandle.mk
                      (handle.child e.2.node_name) e.2.input_name)
                  ++ tail = l := by
                simpa using hl
              rw [← hleq]
              constructor
              · intro hmem
                rcases List.mem_append.mp hmem with hmem2 | htailmem
                · rcases List.mem_append.mp hmem2 with hinner | hedge
                  · refine ⟨m, by simp, hmname, Or.inl ⟨child, hlk, ?_⟩⟩
                    exact (hchild child ⟨_, hlk⟩ _ _ inner hrc dest).mp hinner
                  · rcases List.mem_map.mp hedge with ⟨e, hef, hde⟩
                    rcases List.mem_filter.mp hef with ⟨hee, hbeq⟩
                    exact ⟨m, by simp, hmname,
                      Or.inr ⟨e, hee, beq_iff_eq.mp hbeq, hde.symm⟩⟩
                · rcases (ih tail htail dest).mp htailmem with ⟨m', hm', rest'⟩
                  exact ⟨m', by simp [hm'], rest'⟩
              · rintro ⟨m', hm', hname', hcase⟩
                rcases List.mem_cons.mp hm' with rfl | hm'rest
                · rcases hcase with ⟨child', hlk', hrec'⟩ | ⟨e, he, hfrom, hdest⟩
                  · rw [hlk] at hlk'
                    obtain rfl : child = child' := by
                      simpa using hlk'
                    refine List.mem_append.mpr (Or.inl
                      (List.mem_append.mpr (Or.inl ?_)))
                    exact (hchild child ⟨_, hlk⟩ _ _ inner hrc dest).mpr hrec'
                  · refine List.mem_append.mpr (Or.inl
                      (List.mem_append.mpr (Or.inr ?_)))
                    refine List.mem_map.mpr ⟨e, ?_, hdest.symm⟩
                    exact List.mem_filter.mpr ⟨he, beq_iff_eq.mpr hfrom⟩
                · refine List.mem_append.mpr (Or.inr ?_)
                  exact (ih tail htail dest).mpr ⟨m', hm'rest, hname', hcase⟩
          · rw [if_neg hout] at hl
            cases hl
    · rw [destinationsForMappings_cons_neg out nodes es handle m rest hm] at hl
      rw [ih l hl dest]
      have hmname : ¬ m.graph_output_name = out := by
        intro hh
        exact hm (beq_iff_eq.mpr hh)
      constructor
      · rintro ⟨m', hm', rest'⟩
        exact ⟨m', by simp [hm'], rest'⟩
      · rintro ⟨m', hm', hname', hcase⟩
        rcases List.mem_cons.mp hm' with rfl | hm'rest
        · exact absurd hname' hmname
        · exact ⟨m', hm'rest, hname', hcase⟩

theorem resolve_mem_iff :
    ∀ (N : Nat) (nd : NodeDefinition), sizeOf nd ≤ N →
    ∀ out handle l, resolve_output_to_destinations out nd handle = some l →
    ∀ dest, (dest ∈ l ↔ ReachesDest out nd handle dest) := by
  intro N
  induction N using Nat.strong_induction_on with
  | _ N ihN =>
    intro nd hsz out handle l hres dest
    cases nd with
    | op n outs =>
      have hl' : l = [] := by
        simpa [resolve_output_to_destinations] using hres.symm
      subst hl'
      simp only [List.not_mem_nil, false_iff]
      intro hr
      cases hr
    | graph g nodes maps es =>
      have hres' : destinationsForMappings out nodes es handle maps
          = some l := by
        simpa [resolve_output_to_destinations] using hres
      rw [reaches_graph_iff]
      refine destinations_mem_iff_aux out nodes es handle ?_ maps l hres' dest
      intro child hex o hh l' hres'' dest'
      rcases hex with ⟨nm, hnm⟩
      have hchildsz : sizeOf child < sizeOf (NodeDefinition.graph g nodes
          maps es) := by
        have := sizeOf_lookupNode _ _ _ hnm
        simp only [NodeDefinition.graph.sizeOf_spec]
        omega
      by_cases hN : sizeOf child < N
      · exact ihN (sizeOf child) hN child le_rfl o hh l' hres'' dest'
      · exfalso
        omega

/-- C9 -/
theorem resolve_destinations_depth_bound_and_complete
    (out : String) (nd : NodeDefinition) (handle : NodeHandle) :
    (∀ fuel, nd.depth ≤ fuel →
      resolveDestinationsFuel fuel out nd handle
        = resolve_output_to_destinations out nd handle)
    ∧ (∀ l, resolve_output_to_destinations out nd handle = some l →
      ∀ dest, (dest ∈ l ↔ ReachesDest out nd handle dest)) :=
  ⟨fun fuel hf => resolveDestinationsFuel_adequate fuel nd hf out handle,
   fun l hl dest => resolve_mem_iff (sizeOf nd) nd le_rfl out handle l hl dest⟩

def c9g : NodeDefinition :=
  .graph "g" [("inner", .op "inner" ["r"]), ("consumer", .op "consumer" ["s"])]
    [⟨"out", ⟨"inner", "r"⟩⟩]
    [(⟨"inner", "r"⟩, ⟨"consumer", "x"⟩)]

/-- C9 witness -/
theorem resolve_destinations_depth_bound_and_complete_witness :
    resolveDestinationsFuel 1 "out" c9g ⟨["g"]⟩
      = resolve_output_to_destinations "out" c9g ⟨["g"]⟩
    ∧ ((⟨⟨["g", "consumer"]⟩, "x"⟩ : NodeInputHandle)
        ∈ [(⟨⟨["g", "consumer"]⟩, "x"⟩ : NodeInputHandle)]
      ↔ ReachesDest "out" c9g ⟨["g"]⟩ ⟨⟨["g", "consumer"]⟩, "x"⟩) :=
  ⟨(resolve_destinations_depth_bound_and_complete "out" c9g ⟨["g"]⟩).1 1
    (by simp [c9g, NodeDefinition.depth, depthOfNodes]),
   (resolve_destinations_depth_bound_and_complete "out" c9g ⟨["g"]⟩).2
    [⟨⟨["g", "consumer"]⟩, "x"⟩]
    (by
      simp [c9g, resolve_output_to_destinations, destinationsForMappings,
        lookupNode, NodeDefinition.has_output, NodeHandle.child])
    ⟨⟨["g", "consumer"]⟩, "x"⟩⟩

theorem perm_any_eq {α : Type _} {l1 l2 : List α} (h : l1.Perm l2)
    (p : α → Bool) : l1.any p = l2.any p := by
  have hiff : l1.any p = true ↔ l2.any p = true := by
    rw [List.any_eq_true, List.any_eq_true]
    constructor
    · rintro ⟨x, hx, hpx⟩
      exact ⟨x, h.mem_iff.mp hx, hpx⟩
    · rintro ⟨x, hx, hpx⟩
      exact ⟨x, h.mem_iff.mpr hx, hpx⟩
  cases hb1 : l1.any p with
  | true => exact (hiff.mp hb1).symm
  | false =>
    cases hb2 : l2.any p with
    | true => exact absurd (hiff.mpr hb2) (by simp [hb1])
    | false => rfl

theorem find?_map_eq_of_perm_unique {α β : Type _} {l1 l2 : List α}
    (h : l1.Perm l2) (p : α → Bool) (f : α → β)
    (huniq : ∀ x ∈ l1, ∀ y ∈ l1, p x = true → p y = true → f x = f y) :
    (l1.find? p).map f = (l2.find? p).map f := by
  by_cases hex : ∃ x ∈ l1, p x = true
  · rcases hex with ⟨x, hx, hpx⟩
    rw [find?_map_eq_of_unique ⟨x, hx, hpx, rfl⟩
      (fun y hy hpy => huniq y hy x hx hpy hpx)]
    rw [find?_map_eq_of_unique ⟨x, h.mem_iff.mp hx, hpx, rfl⟩
      (fun y hy hpy => huniq y (h.mem_iff.mpr hy) x hx hpy hpx)]
  · push_neg at hex
    rw [List.find?_eq_none.mpr (fun y hy => by simp [hex y hy]),
      List.find?_eq_none.mpr (fun y hy => by
        simp [hex y (h.mem_iff.mpr hy)])]

theorem flatMap_keys_nodup_unique {l : List AssetsDefinition}
    (h : (l.flatMap (fun d => d.keys)).Nodup) :
    ∀ d1 ∈ l, ∀ d2 ∈ l, ∀ k : AssetKey,
    k ∈ d1.keys → k ∈ d2.keys → d1 = d2 := by
  induction l with
  | nil =>
    intro d1 h1
    simp at h1
  | cons d rest ih =>
    intro d1 h1 d2 h2 k hk1 hk2
    rw [List.flatMap_cons] at h
    rcases List.nodup_append.mp h with ⟨_, hrest, hdisj⟩
    rcases List.mem_cons.mp h1 with rfl | h1r
    · rcases List.mem_cons.mp h2 with rfl | h2r
      · rfl
      · exfalso
        exact hdisj hk1 (List.mem_flatMap.mpr ⟨d2, h2r, hk2⟩)
    · rcases List.mem_cons.mp h2 with rfl | h2r
      · exfalso
        exact hdisj hk2 (List.mem_flatMap.mpr ⟨d1, h1r, hk1⟩)
      · exact ih hrest d1 h1r d2 h2r k hk1 hk2

theorem assetKeyLe_total : ∀ a b : AssetKey,
    assetKeyLe a b = true ∨ assetKeyLe b a = true :=
  fun a b => leOfLt_total assetKey_lt_strict a b

theorem assetKeyLe_trans : ∀ a b c : AssetKey, assetKeyLe a b = true →
    assetKeyLe b c = true → assetKeyLe a c = true :=
  fun a b c => leOfLt_trans assetKey_lt_strict a b c

theorem assetKeyListLt_strict : IsStrictBoolOrder assetKeyListLt :=
  lexLt_strict assetKey_lt_strict

theorem stub_keys_perm_eq {l1 l2 : List AssetsDefinition}
    (hp : l1.Perm l2) : stub_keys l1 = stub_keys l2 := by
  simp only [stub_keys]
  have hsorted : sortBy assetKeyLe (l1.flatMap (fun d => d.dependency_keys))
      = sortBy assetKeyLe (l2.flatMap (fun d => d.dependency_keys)) := by
    refine sortBy_eq_of_perm assetKeyLe_total assetKeyLe_trans _ _
      (hp.flatMap_right _) ?_
    intro a _ b _ hab hba
    exact leOfLt_antisymm assetKey_lt_strict a b hab hba
  rw [hsorted]
  refine List.filter_congr ?_
  intro k _
  have hmemiff : k ∈ l1.flatMap (fun d => d.keys)
      ↔ k ∈ l2.flatMap (fun d => d.keys) := (hp.flatMap_right _).mem_iff
  by_cases hk : k ∈ l1.flatMap (fun d => d.keys)
  · have h1 : (l1.flatMap fun d => d.keys).contains k = true :=
      List.elem_iff.mpr hk
    have h2 : (l2.flatMap fun d => d.keys).contains k = true :=
      List.elem_iff.mpr (hmemiff.mp hk)
    rw [h1, h2]
  · have h1 : (l1.flatMap fun d => d.keys).contains k = false :=
      Bool.eq_false_iff.mpr (fun hc => hk (List.elem_iff.mp hc))
    have h2 : (l2.flatMap fun d => d.keys).contains k = false :=
      Bool.eq_false_iff.mpr
        (fun hc => hk (hmemiff.mpr (List.elem_iff.mp hc)))
    rw [h1, h2]

theorem normalize_perm {l1 l2 : List AssetsDefinition} (hp : l1.Perm l2) :
    (normalize_assets l1).Perm (normalize_assets l2) := by
  unfold normalize_assets
  rw [stub_keys_perm_eq hp]
  exact hp.append_right _

theorem stub_key_not_produced {l : List AssetsDefinition} {k : AssetKey}
    (h : k ∈ stub_keys l) : ¬ k ∈ l.flatMap (fun d => d.keys) := by
  simp only [stub_keys] at h
  rcases List.mem_filter.mp h with ⟨_, hf⟩
  intro hmem
  have hc : (l.flatMap fun d => d.keys).contains k = true :=
    List.elem_iff.mpr hmem
  rw [hc] at hf
  simp at hf

theorem key_owner_unique {l : List AssetsDefinition}
    (hkeys : (l.flatMap (fun d => d.keys)).Nodup) :
    ∀ d1 ∈ normalize_assets l, ∀ d2 ∈ normalize_assets l, ∀ k : AssetKey,
    k ∈ d1.keys → k ∈ d2.keys → d1 = d2 := by
  intro d1 h1 d2 h2 k hk1 hk2
  rcases List.mem_append.mp h1 with h1a | h1s
  · rcases List.mem_append.mp h2 with h2a | h2s
    · exact flatMap_keys_nodup_unique hkeys d1 h1a d2 h2a k hk1 hk2
    · exfalso
      rcases List.mem_map.mp h2s with ⟨k2, hk2s, hk2e⟩
      rw [← hk2e] at hk2
      simp only [stub_asset, List.mem_singleton] at hk2
      subst hk2
      exact stub_key_not_produced hk2s (List.mem_flatMap.mpr ⟨d1, h1a, hk1⟩)
  · rcases List.mem_map.mp h1s with ⟨k1, hk1s, hk1e⟩
    rw [← hk1e] at hk1
    simp only [stub_asset, List.mem_singleton] at hk1
    subst hk1
    rcases List.mem_append.mp h2 with h2a | h2s
    · exfalso
      exact stub_key_not_produced hk1s (List.mem_flatMap.mpr ⟨d2, h2a, hk2⟩)
    · rcases List.mem_map.mp h2s with ⟨k2, _, hk2e⟩
      rw [← hk2e] at hk2
      simp only [stub_asset, List.mem_singleton] at hk2
      rw [← hk1e, ← hk2e, hk2]

theorem sort_key_stub (k : AssetKey) : sort_key (stub_asset k) = [k] := rfl

theorem sortkey_inj_normalize {l : List AssetsDefinition}
    (hkeys : (l.flatMap (fun d => d.keys)).Nodup)
    (hsort : (l.map sort_key).Nodup) :
    ∀ a ∈ normalize_assets l, ∀ b ∈ normalize_assets l,
    sort_key a = sort_key b → a = b := by
  have hprod : ∀ a ∈ l, ∀ k : AssetKey, sort_key a = [k] →
      k ∈ l.flatMap (fun d => d.keys) := by
    intro a ha k hk
    have hperm := sortBy_perm assetKeyLe a.keys
    rw [show sortBy assetKeyLe a.keys = sort_key a from rfl, hk] at hperm
    have : a.keys = [k] := (hperm.symm).eq_singleton
    refine List.mem_flatMap.mpr ⟨a, ha, ?_⟩
    rw [this]
    simp
  intro a ha b hb hab
  rcases List.mem_append.mp ha with haa | has
  · rcases List.mem_append.mp hb with hba | hbs
    · exact List.inj_on_of_nodup_map hsort haa hba hab
    · exfalso
      rcases List.mem_map.mp hbs with ⟨k, hks, hke⟩
      rw [← hke, sort_key_stub] at hab
      exact stub_key_not_produced hks (hprod a haa k hab)
  · rcases List.mem_map.mp has with ⟨k, hks, hke⟩
    rcases List.mem_append.mp hb with hba | hbs
    · exfalso
      rw [← hke, sort_key_stub] at hab
      exact stub_key_not_produced hks (hprod b hba k hab.symm)
    · rcases List.mem_map.mp hbs with ⟨k2, _, hk2e⟩
      rw [← hke, ← hk2e, sort_key_stub, sort_key_stub] at hab
      rw [← hke, ← hk2e]
      rw [List.cons.injEq] at hab
      rw [hab.1]

theorem sorted_normalize_eq {l1 l2 : List AssetsDefinition}
    (hp : l1.Perm l2)
    (hkeys : (l1.flatMap (fun d => d.keys)).Nodup)
    (hsort : (l1.map sort_key).Nodup) :
    sortBy assets_def_le (normalize_assets l1)
      = sortBy assets_def_le (normalize_assets l2) := by
  refine sortBy_eq_of_perm ?_ ?_ _ _ (normalize_perm hp) ?_
  · intro a b
    exact leOfLt_total assetKeyListLt_strict (sort_key a) (sort_key b)
  · intro a b c hab hbc
    exact leOfLt_trans assetKeyListLt_strict _ _ _ hab hbc
  · intro a ha b hb hab hba
    exact sortkey_inj_normalize hkeys hsort a ha b hb
      (leOfLt_antisymm assetKeyListLt_strict _ _ hab hba)

theorem upstream_of_perm {ds1 ds2 : List AssetsDefinition}
    (hp : ds1.Perm ds2) : upstream_of ds1 = upstream_of ds2 := by
  funext k p
  exact perm_any_eq hp _

theorem downstream_of_perm {ds1 ds2 : List AssetsDefinition}
    (hp : ds1.Perm ds2) : downstream_of ds1 = downstream_of ds2 := by
  funext k c
  exact perm_any_eq hp _

theorem check_keys_for_perm {ds1 ds2 : List AssetsDefinition}
    (hp : ds1.Perm ds2) : check_keys_for ds1 = check_keys_for ds2 := by
  funext k ck
  unfold check_keys_for
  rw [perm_any_eq hp]

theorem asset_nodes_of_perm {l1 l2 : List AssetsDefinition}
    (hp : l1.Perm l2)
    (huniq : ∀ d1 ∈ l1, ∀ d2 ∈ l1, ∀ k : AssetKey,
      k ∈ d1.keys → k ∈ d2.keys → d1 = d2) :
    asset_nodes_of l1 = asset_nodes_of l2 := by
  funext k
  unfold asset_nodes_of
  rw [upstream_of_perm hp, downstream_of_perm hp, check_keys_for_perm hp]
  have hrev : l1.reverse.Perm l2.reverse :=
    (l1.reverse_perm).trans (hp.trans (l2.reverse_perm).symm)
  refine find?_map_eq_of_perm_unique hrev _ _ ?_
  intro x hx y hy hpx hpy
  have hxy : x = y := huniq x (List.mem_reverse.mp hx) y
    (List.mem_reverse.mp hy) k (List.elem_iff.mp hpx) (List.elem_iff.mp hpy)
  rw [hxy]

/-- C6 amended -/
theorem from_assets_perm_invariant (l1 l2 : List AssetsDefinition)
    (hp : l1.Perm l2)
    (hkeys : (l1.flatMap (fun d => d.keys)).Nodup)
    (hsort : (l1.map sort_key).Nodup) :
    from_assets l1 = from_assets l2
    ∧ build_assets_defs_by_op_node_names (normalize_assets l1)
      = build_assets_defs_by_op_node_names (normalize_assets l2) := by
  have hnp := normalize_perm hp
  have hbuild : build_assets_defs_by_op_node_names (normalize_assets l1)
      = build_assets_defs_by_op_node_names (normalize_assets l2) := by
    unfold build_assets_defs_by_op_node_names
    rw [sorted_normalize_eq hp hkeys hsort]
  have hnodes : asset_nodes_of (normalize_assets l1)
      = asset_nodes_of (normalize_assets l2) :=
    asset_nodes_of_perm hnp (fun d1 h1 d2 h2 k hk1 hk2 =>
      key_owner_unique hkeys d1 h1 d2 h2 k hk1 hk2)
  refine ⟨?_, hbuild⟩
  show AssetGraph.mk (asset_nodes_of (normalize_assets l1))
      (check_defs_of
        (build_assets_defs_by_op_node_names (normalize_assets l1)))
      (lookup_last (output_key_entries
        (build_assets_defs_by_op_node_names (normalize_assets l1))))
      false (fun _ => "")
    = AssetGraph.mk (asset_nodes_of (normalize_assets l2))
      (check_defs_of
        (build_assets_defs_by_op_node_names (normalize_assets l2)))
      (lookup_last (output_key_entries
        (build_assets_defs_by_op_node_names (normalize_assets l2))))
      false (fun _ => "")
  rw [hnodes, hbuild]

def c6d1 : AssetsDefinition :=
  mkDef [] [] [("c1", ⟨"c1", ⟨["t"]⟩⟩)] false true true none []
    (.op "the_op" [])

def c6d2 : AssetsDefinition :=
  mkDef [] [] [("c2", ⟨"c2", ⟨["t"]⟩⟩)] false true true none []
    (.op "the_op" [])

/-- C6 counterexample -/
theorem from_assets_perm_counterexample :
    (build_assets_defs_by_op_node_names (normalize_assets [c6d1, c6d2])).map
        (fun p => (p.1, p.2.check_keys))
      ≠ (build_assets_defs_by_op_node_names
          (normalize_assets [c6d2, c6d1])).map
        (fun p => (p.1, p.2.check_keys)) := by decide

/-- C6 witness -/
theorem from_assets_perm_invariant_witness :
    from_assets [c7d1, c7d2] = from_assets [c7d2, c7d1]
    ∧ build_assets_defs_by_op_node_names (normalize_assets [c7d1, c7d2])
      = build_assets_defs_by_op_node_names (normalize_assets [c7d2, c7d1]) :=
  from_assets_perm_invariant [c7d1, c7d2] [c7d2, c7d1]
    (List.Perm.swap c7d2 c7d1 []) (by decide) (by decide)
